import Mathlib

/-!
# Verification of the Knowledge Garden category-tree / search-sync core

Shallow embedding of the category controller of the Knowledge Garden backend
(`src/services/tag-service/controllers/category.controller.js`), of the
category mongoose model (`CategorySchema`), of the cache utility
(`src/utils/cache.js`) and of the advanced-search controller
(`src/services/search-service/controllers/search.controller.js`).

The PrimaryStore (MongoDB collection of categories) is modelled as an
association list from ids to category records, in insertion order.  Document
ids are natural numbers; the JS `'root'` sentinel of `moveCategory` is
modelled by `Option.none` in the move target.  `Date.now()` is modelled by an
explicit time argument threaded into every operation that saves documents.
Elasticsearch calls are modelled by an explicit outcome argument
(`Bool` / `Except`): the controller code only observes success or failure of
those calls, catching every failure.
-/

namespace KnowledgeGarden

/-- A category document, after the mongoose `CategorySchema`
(`src/services/tag-service/models/category.model.js`).  `parent = none` is a
root category.  `createdBy` is the id of the creating user. -/
structure CategoryNode where
  name : String
  description : String
  slug : String
  parent : Option Nat
  ancestors : List Nat
  resourceCount : Nat
  isActive : Bool
  createdBy : Nat
  createdAt : Nat
  updatedAt : Nat
deriving Repr, DecidableEq

/-- The MongoDB categories collection: an association list id ↦ document in
insertion order. -/
abbrev Store := List (Nat × CategoryNode)

/-- The ids present in the store. -/
def keys (s : Store) : List Nat := s.map Prod.fst

/-- `Category.findById` / `findOne({_id: id})`. -/
def find? (s : Store) (id : Nat) : Option CategoryNode :=
  (s.find? (fun e => e.1 = id)).map Prod.snd

/-- Overwrite the document stored under `id` (mongoose `document.save()` /
`findByIdAndUpdate` on an existing id); ids without a document are untouched. -/
def save (s : Store) (id : Nat) (n : CategoryNode) : Store :=
  s.map (fun e => if e.1 = id then (id, n) else e)

/-- Delete the document stored under `id` (mongoose `document.remove()`). -/
def removeId (s : Store) (id : Nat) : Store :=
  s.filter (fun e => e.1 ≠ id)

/-- `Category.find({parent: parentId})`: all documents whose `parent` is
`parentId`, in store order. -/
def childrenOf (s : Store) (parentId : Nat) : List (Nat × CategoryNode) :=
  s.filter (fun e => e.2.parent = some parentId)

/-- `Category.findOne({name: nm})` used by the duplicate-name checks: is some
stored document named `nm`? -/
def nameExists (s : Store) (nm : String) : Bool :=
  s.any (fun e => e.2.name = nm)

section StoreLemmas

theorem find?_cons (e : Nat × CategoryNode) (rest : Store) (id : Nat) :
    find? (e :: rest) id = if e.1 = id then some e.2 else find? rest id := by
  by_cases he : e.1 = id
  · rw [if_pos he]
    unfold find?
    rw [List.find?_cons_of_pos _ (by simpa using he)]
    rfl
  · rw [if_neg he]
    unfold find?
    rw [List.find?_cons_of_neg _ (by simpa using he)]

theorem find?_eq_none_of_not_mem_keys {s : Store} {id : Nat} (h : id ∉ keys s) :
    find? s id = none := by
  induction s with
  | nil => rfl
  | cons e rest ih =>
    simp only [keys, List.map_cons, List.mem_cons, not_or] at h
    rw [find?_cons, if_neg (fun he => h.1 he.symm)]
    exact ih h.2

theorem find?_some_mem {s : Store} {id : Nat} {n : CategoryNode}
    (h : find? s id = some n) : (id, n) ∈ s := by
  induction s with
  | nil => simp [find?] at h
  | cons e rest ih =>
    rw [find?_cons] at h
    by_cases he : e.1 = id
    · rw [if_pos he] at h
      cases h
      have : e = (id, e.2) := by
        cases e
        simp_all
      rw [← this]
      exact List.mem_cons_self _ _
    · rw [if_neg he] at h
      exact List.mem_cons_of_mem _ (ih h)

theorem mem_keys_of_find?_some {s : Store} {id : Nat} {n : CategoryNode}
    (h : find? s id = some n) : id ∈ keys s :=
  List.mem_map.mpr ⟨(id, n), find?_some_mem h, rfl⟩

theorem mem_find? {s : Store} {id : Nat} {n : CategoryNode}
    (hk : (keys s).Nodup) (h : (id, n) ∈ s) : find? s id = some n := by
  induction s with
  | nil => simp at h
  | cons e rest ih =>
    simp only [keys, List.map_cons, List.nodup_cons] at hk
    rcases List.mem_cons.mp h with h | h
    · subst h
      rw [find?_cons, if_pos rfl]
    · have hne : e.1 ≠ id := by
        intro he
        exact hk.1 (he ▸ List.mem_map.mpr ⟨(id, n), h, rfl⟩)
      rw [find?_cons, if_neg hne]
      exact ih hk.2 h

theorem keys_save (s : Store) (id : Nat) (n : CategoryNode) :
    keys (save s id n) = keys s := by
  unfold keys save
  rw [List.map_map]
  apply List.map_congr_left
  intro e _
  by_cases he : e.1 = id
  · simp [he]
  · simp [he]

theorem length_save (s : Store) (id : Nat) (n : CategoryNode) :
    (save s id n).length = s.length :=
  List.length_map _ _

theorem save_cons (e : Nat × CategoryNode) (rest : Store) (id : Nat) (n : CategoryNode) :
    save (e :: rest) id n = (if e.1 = id then (id, n) else e) :: save rest id n := rfl

theorem find?_save_ne {s : Store} {id x : Nat} (n : CategoryNode) (h : x ≠ id) :
    find? (save s id n) x = find? s x := by
  induction s with
  | nil => rfl
  | cons e rest ih =>
    rw [save_cons]
    by_cases he : e.1 = id
    · rw [if_pos he, find?_cons, find?_cons,
        if_neg (fun hx => h hx.symm), if_neg (he ▸ (fun hx => h hx.symm) : ¬ e.1 = x), ih]
    · rw [if_neg he, find?_cons, find?_cons, ih]

theorem find?_save_self {s : Store} {id : Nat} {m : CategoryNode} (n : CategoryNode)
    (h : find? s id = some m) : find? (save s id n) id = some n := by
  induction s with
  | nil => simp [find?] at h
  | cons e rest ih =>
    rw [save_cons]
    by_cases he : e.1 = id
    · rw [if_pos he, find?_cons, if_pos rfl]
    · rw [if_neg he, find?_cons, if_neg he]
      rw [find?_cons, if_neg he] at h
      exact ih h

theorem removeId_cons (e : Nat × CategoryNode) (rest : Store) (id : Nat) :
    removeId (e :: rest) id =
      if e.1 = id then removeId rest id else e :: removeId rest id := by
  unfold removeId
  rw [List.filter_cons]
  by_cases he : e.1 = id
  · simp [he]
  · simp [he]

theorem keys_removeId_not_mem (s : Store) (id : Nat) : id ∉ keys (removeId s id) := by
  induction s with
  | nil => simp [removeId, keys]
  | cons e rest ih =>
    rw [removeId_cons]
    by_cases he : e.1 = id
    · rw [if_pos he]
      exact ih
    · rw [if_neg he]
      intro hmem
      rcases List.mem_cons.mp hmem with hmem | hmem
      · exact he hmem.symm
      · exact ih hmem

theorem find?_removeId_self (s : Store) (id : Nat) :
    find? (removeId s id) id = none :=
  find?_eq_none_of_not_mem_keys (keys_removeId_not_mem s id)

theorem find?_removeId_ne {s : Store} {id x : Nat} (h : x ≠ id) :
    find? (removeId s id) x = find? s x := by
  induction s with
  | nil => rfl
  | cons e rest ih =>
    rw [removeId_cons]
    by_cases he : e.1 = id
    · rw [if_pos he, ih, find?_cons, if_neg (he ▸ (fun hx => h hx.symm) : ¬ e.1 = x)]
    · rw [if_neg he, find?_cons, find?_cons, ih]

theorem mem_childrenOf {s : Store} {pid : Nat} {e : Nat × CategoryNode} :
    e ∈ childrenOf s pid ↔ e ∈ s ∧ e.2.parent = some pid := by
  unfold childrenOf
  rw [List.mem_filter]
  simp

theorem childrenOf_sublist (s : Store) (pid : Nat) :
    (childrenOf s pid).Sublist s :=
  List.filter_sublist s

theorem childrenOf_keys_nodup {s : Store} (pid : Nat) (hk : (keys s).Nodup) :
    ((childrenOf s pid).map Prod.fst).Nodup :=
  List.Nodup.sublist (List.Sublist.map Prod.fst (childrenOf_sublist s pid)) hk

theorem childrenOf_current {s : Store} {pid : Nat} {e : Nat × CategoryNode}
    (hk : (keys s).Nodup) (h : e ∈ childrenOf s pid) :
    find? s e.1 = some e.2 ∧ e.2.parent = some pid := by
  rcases mem_childrenOf.mp h with ⟨hmem, hpar⟩
  exact ⟨mem_find? hk (by cases e; exact hmem), hpar⟩

/-- The parent field of the document stored under `id`, if any: all the
parent-link structure of the store. -/
def parentOf (s : Store) (id : Nat) : Option (Option Nat) :=
  (find? s id).map CategoryNode.parent

theorem childrenOf_complete {s : Store} {c pid : Nat}
    (h : parentOf s c = some (some pid)) :
    c ∈ (childrenOf s pid).map Prod.fst := by
  unfold parentOf at h
  rcases Option.map_eq_some'.mp h with ⟨n, hn, hp⟩
  exact List.mem_map.mpr ⟨(c, n), mem_childrenOf.mpr ⟨find?_some_mem hn, hp⟩, rfl⟩

end StoreLemmas

/-! ## Parent-link paths

The tree structure of the category collection is the graph of `parent`
links.  `childOf s c p` says the stored document `c` has parent `p`;
`PPath s a c k` says `c` is reachable from `a` by descending exactly `k`
child links; `Desc s a c` says `c` is a strict descendant of `a`. -/

/-- `c` is a stored document whose `parent` field is `p`. -/
def childOf (s : Store) (c p : Nat) : Prop := parentOf s c = some (some p)

/-- `PPath s a c k`: there is a descending chain of `k ≥ 1` parent links from
`a` down to `c`. -/
inductive PPath (s : Store) (a : Nat) : Nat → Nat → Prop where
  | single {c : Nat} : childOf s c a → PPath s a c 1
  | step {b c : Nat} {k : Nat} : PPath s a b k → childOf s c b → PPath s a c (k + 1)

/-- `c` is a strict descendant of `a` along parent links. -/
def Desc (s : Store) (a c : Nat) : Prop := ∃ k, PPath s a c k

section PathLemmas

theorem childOf_fun {s : Store} {c p q : Nat} (hp : childOf s c p) (hq : childOf s c q) :
    p = q := by
  unfold childOf at hp hq
  rw [hp] at hq
  cases hq
  rfl

theorem childOf_congr {s s' : Store} (hpm : ∀ x, parentOf s' x = parentOf s x)
    {c p : Nat} (h : childOf s c p) : childOf s' c p := by
  unfold childOf at h ⊢
  rw [hpm, h]

theorem PPath.congr {s s' : Store} (hpm : ∀ x, parentOf s' x = parentOf s x)
    {a c k : Nat} (h : PPath s a c k) : PPath s' a c k := by
  induction h with
  | single h1 => exact PPath.single (childOf_congr hpm h1)
  | step _ h2 ih => exact PPath.step ih (childOf_congr hpm h2)

theorem PPath.pos {s : Store} {a c k : Nat} (h : PPath s a c k) : 0 < k := by
  cases h with
  | single _ => exact Nat.one_pos
  | step _ _ => exact Nat.succ_pos _

theorem PPath.concat {s : Store} {a b c i j : Nat}
    (h1 : PPath s a b i) (h2 : PPath s b c j) : PPath s a c (i + j) := by
  induction h2 with
  | single h => exact PPath.step h1 h
  | step _ h ih => exact PPath.step ih h

theorem PPath.prepend {s : Store} {a b c k : Nat}
    (hb : childOf s b a) (h : PPath s b c k) : PPath s a c (k + 1) := by
  have := PPath.concat (PPath.single hb) h
  rwa [Nat.add_comm] at this

/-- Decompose a path at its last edge. -/
theorem PPath.last_decomp {s : Store} {a c k : Nat} (h : PPath s a c k) :
    (k = 1 ∧ childOf s c a) ∨ (∃ b k', k = k' + 1 ∧ PPath s a b k' ∧ childOf s c b) := by
  cases h with
  | single h1 => exact Or.inl ⟨rfl, h1⟩
  | step hp h2 => exact Or.inr ⟨_, _, rfl, hp, h2⟩

/-- Decompose a path at its first edge. -/
theorem PPath.first_decomp {s : Store} {a c k : Nat} (h : PPath s a c k) :
    ∃ c1, childOf s c1 a ∧ ((k = 1 ∧ c = c1) ∨ ∃ k', k = k' + 1 ∧ PPath s c1 c k') := by
  induction h with
  | single h1 => exact ⟨_, h1, Or.inl ⟨rfl, rfl⟩⟩
  | step _ h2 ih =>
    rcases ih with ⟨c1, hc1, hrest⟩
    refine ⟨c1, hc1, Or.inr ?_⟩
    rcases hrest with ⟨hk, hb⟩ | ⟨k', hk, hp⟩
    · exact ⟨1, by rw [hk], PPath.single (hb ▸ h2)⟩
    · exact ⟨k' + 1, by rw [hk], PPath.step hp h2⟩

theorem desc_iff_child_or {s : Store} {a x : Nat} :
    Desc s a x ↔ ∃ c1, childOf s c1 a ∧ (x = c1 ∨ Desc s c1 x) := by
  constructor
  · rintro ⟨k, hp⟩
    rcases hp.first_decomp with ⟨c1, hc1, hrest⟩
    refine ⟨c1, hc1, ?_⟩
    rcases hrest with ⟨_, hx⟩ | ⟨k', _, hp'⟩
    · exact Or.inl hx
    · exact Or.inr ⟨k', hp'⟩
  · rintro ⟨c1, hc1, hx | ⟨k, hp⟩⟩
    · exact ⟨1, hx ▸ PPath.single hc1⟩
    · exact ⟨k + 1, PPath.prepend hc1 hp⟩

/-- Two ancestors of the same node along parent links are comparable: equal,
or one lies strictly below the other. -/
theorem PPath.comparable {s : Store} :
    ∀ N {a b x k m}, k + m ≤ N → PPath s a x k → PPath s b x m →
      a = b ∨ Desc s a b ∨ Desc s b a := by
  intro N
  induction N with
  | zero =>
    intro a b x k m hN h1 _
    exact absurd hN (by have := h1.pos; omega)
  | succ N ih =>
    intro a b x k m hN h1 h2
    rcases h1.last_decomp with ⟨hk1, hc1⟩ | ⟨y, k', hk, hp1, hcy⟩
    · rcases h2.last_decomp with ⟨hm1, hc2⟩ | ⟨y', m', hm, hp2, hcy'⟩
      · exact Or.inl ((childOf_fun hc1 hc2))
      · have : a = y' := childOf_fun hc1 hcy'
        exact Or.inr (Or.inr ⟨m', this ▸ hp2⟩)
    · rcases h2.last_decomp with ⟨hm1, hc2⟩ | ⟨y', m', hm, hp2, hcy'⟩
      · have : b = y := childOf_fun hc2 hcy
        exact Or.inr (Or.inl ⟨k', this ▸ hp1⟩)
      · have hyy : y = y' := childOf_fun hcy hcy'
        subst hyy
        have hle : k' + m' ≤ N := by omega
        exact ih hle hp1 hp2

/-- If all descending paths from `r` have length at most `fuel`, no node at
or below `r` lies on a parent-link cycle. -/
theorem no_cycle_of_bound {s : Store} {r fuel : Nat}
    (hb : ∀ c k, PPath s r c k → k ≤ fuel) :
    ∀ v, (v = r ∨ Desc s r v) → ∀ j, ¬ PPath s v v j := by
  have pump : ∀ {v j}, PPath s v v j → ∀ m, PPath s v v ((m + 1) * j) := by
    intro v j hp m
    induction m with
    | zero => simpa using hp
    | succ m ih =>
      have := PPath.concat ih hp
      have harith : (m + 1) * j + j = (m + 1 + 1) * j := by ring
      rwa [harith] at this
  rintro v (rfl | ⟨i, hp⟩) j hcyc
  · have h1 := pump hcyc fuel
    have h2 := hb _ _ h1
    have := hcyc.pos
    nlinarith
  · have h1 : ∀ m, PPath s v v ((m + 1) * j) := pump hcyc
    have h2 := PPath.concat hp (h1 fuel)
    have h3 := hb _ _ h2
    have := hcyc.pos
    nlinarith

end PathLemmas

/-! ## The materialized-ancestor invariant -/

/-- Local form of the ancestors invariant at one document: a root has empty
`ancestors`; otherwise its parent is stored and
`ancestors = parent.ancestors ++ [parent]` (invariant I2 of the spec). -/
def localInv (s : Store) (n : CategoryNode) : Prop :=
  match n.parent with
  | none => n.ancestors = []
  | some p => ∃ pn, find? s p = some pn ∧ n.ancestors = pn.ancestors ++ [p]

/-- Every stored document satisfies the local ancestors invariant. -/
def Inv (s : Store) : Prop :=
  ∀ id n, find? s id = some n → localInv s n

theorem localInv_congr {s s' : Store} {n : CategoryNode}
    (h : localInv s n)
    (hsame : ∀ p, n.parent = some p → find? s' p = find? s p) :
    localInv s' n := by
  unfold localInv at h ⊢
  cases hp : n.parent with
  | none => rw [hp] at h; exact h
  | some p =>
    rw [hp] at h
    rcases h with ⟨pn, hpn, hanc⟩
    exact ⟨pn, (hsame p hp).symm ▸ hpn, hanc⟩

section CountingLemmas

/-- Under the invariant, each step down a parent-link path extends the
`ancestors` list by exactly one entry. -/
theorem ppath_ancestors_length {s : Store} (hInv : Inv s) {a c k : Nat}
    (hp : PPath s a c k) :
    ∀ na nc, find? s a = some na → find? s c = some nc →
      nc.ancestors.length = na.ancestors.length + k := by
  induction hp with
  | single h1 =>
    intro na nc hna hnc
    rcases Option.map_eq_some'.mp h1 with ⟨n, hn, hparent⟩
    rw [hnc] at hn
    cases hn
    have hl := hInv _ _ hnc
    unfold localInv at hl
    rw [hparent] at hl
    rcases hl with ⟨pn, hpn, hanc⟩
    rw [hna] at hpn
    cases hpn
    rw [hanc]
    simp
  | step hp h2 ih =>
    intro na nc hna hnc
    rcases Option.map_eq_some'.mp h2 with ⟨n, hn, hparent⟩
    rw [hnc] at hn
    cases hn
    have hl := hInv _ _ hnc
    unfold localInv at hl
    rw [hparent] at hl
    rcases hl with ⟨pn, hpn, hanc⟩
    have := ih na pn hna hpn
    rw [hanc]
    simp [this]
    omega

/-- Under the invariant, if `c` descends from `a` then `a` is listed in `c`'s
`ancestors`. -/
theorem mem_ancestors_of_ppath {s : Store} (hInv : Inv s) {a c k : Nat}
    (hp : PPath s a c k) :
    ∀ nc, find? s c = some nc → a ∈ nc.ancestors := by
  induction hp with
  | single h1 =>
    intro nc hnc
    rcases Option.map_eq_some'.mp h1 with ⟨n, hn, hparent⟩
    rw [hnc] at hn
    cases hn
    have hl := hInv _ _ hnc
    unfold localInv at hl
    rw [hparent] at hl
    rcases hl with ⟨pn, _, hanc⟩
    rw [hanc]
    simp
  | step hp h2 ih =>
    intro nc hnc
    rcases Option.map_eq_some'.mp h2 with ⟨n, hn, hparent⟩
    rw [hnc] at hn
    cases hn
    have hl := hInv _ _ hnc
    unfold localInv at hl
    rw [hparent] at hl
    rcases hl with ⟨pn, hpn, hanc⟩
    rw [hanc]
    exact List.mem_append_left _ (ih pn hpn)

/-- Prefix structure of `ancestors` under the invariant: the `i`-th listed
ancestor is stored, and its own `ancestors` list is the `i`-prefix. -/
theorem ancestors_prefix {s : Store} (hInv : Inv s) :
    ∀ N id n, find? s id = some n → n.ancestors.length ≤ N →
      ∀ i, (hi : i < n.ancestors.length) →
        ∃ m, find? s (n.ancestors.get ⟨i, hi⟩) = some m ∧
          m.ancestors = n.ancestors.take i := by
  intro N
  induction N with
  | zero =>
    intro id n _ hlen i hi
    omega
  | succ N ih =>
    intro id n hn hlen i hi
    have hl := hInv _ _ hn
    unfold localInv at hl
    cases hp : n.parent with
    | none =>
      rw [hp] at hl
      rw [hl] at hi
      simp at hi
    | some p =>
      rw [hp] at hl
      rcases hl with ⟨pn, hpn, hanc⟩
      have hlen' : n.ancestors.length = pn.ancestors.length + 1 := by
        rw [hanc]; simp
      by_cases hip : i < pn.ancestors.length
      · have hget : n.ancestors.get ⟨i, hi⟩ = pn.ancestors.get ⟨i, hip⟩ := by
          have h1 : n.ancestors[i]? = pn.ancestors[i]? := by
            rw [hanc]
            exact List.getElem?_append_left hip
          rw [List.getElem?_eq_getElem hi, List.getElem?_eq_getElem hip] at h1
          simp only [List.get_eq_getElem]
          exact Option.some.inj h1
        rcases ih p pn hpn (by omega) i hip with ⟨m, hm, hanc'⟩
        refine ⟨m, hget ▸ hm, ?_⟩
        rw [hanc', hanc, List.take_append_of_le_length (Nat.le_of_lt hip)]
      · have hieq : i = pn.ancestors.length := by omega
        have hget : n.ancestors.get ⟨i, hi⟩ = p := by
          have h1 : n.ancestors[i]? = some p := by
            rw [hanc, List.getElem?_append_right (by omega), hieq]
            simp
          rw [List.getElem?_eq_getElem hi] at h1
          simp only [List.get_eq_getElem]
          exact Option.some.inj h1
        refine ⟨pn, hget ▸ hpn, ?_⟩
        rw [hanc, hieq, List.take_append_of_le_length (Nat.le_refl _), List.take_length]

/-- Under the invariant, `ancestors` has no duplicates and every listed
ancestor is a stored id distinct from the node's own id. -/
theorem ancestors_nodup_sub {s : Store} (hInv : Inv s) {id : Nat} {n : CategoryNode}
    (hn : find? s id = some n) :
    (id :: n.ancestors).Nodup ∧ ∀ x ∈ id :: n.ancestors, x ∈ keys s := by
  have hpref := fun i hi => ancestors_prefix hInv n.ancestors.length id n hn (Nat.le_refl _) i hi
  have hnodup : n.ancestors.Nodup := by
    rw [List.nodup_iff_injective_get]
    intro ⟨i, hi⟩ ⟨j, hj⟩ hij
    rcases hpref i hi with ⟨mi, hmi, hanci⟩
    rcases hpref j hj with ⟨mj, hmj, hancj⟩
    rw [hij] at hmi
    rw [hmi] at hmj
    cases hmj
    have : n.ancestors.take i = n.ancestors.take j := by rw [← hanci, hancj]
    have hlen : (n.ancestors.take i).length = (n.ancestors.take j).length := by rw [this]
    simp only [List.length_take] at hlen
    have : i = j := by omega
    simp [this]
  have hid : id ∉ n.ancestors := by
    intro hmem
    rcases List.mem_iff_get.mp hmem with ⟨⟨i, hi⟩, hget⟩
    rcases hpref i hi with ⟨m, hm, hanc⟩
    rw [hget, hn] at hm
    cases hm
    have : n.ancestors.length = i := by
      have : (n.ancestors.take i).length = n.ancestors.length := by rw [← hanc]
      simp only [List.length_take] at this
      omega
    omega
  constructor
  · exact List.nodup_cons.mpr ⟨hid, hnodup⟩
  · intro x hx
    rcases List.mem_cons.mp hx with rfl | hx
    · exact mem_keys_of_find?_some hn
    · rcases List.mem_iff_get.mp hx with ⟨⟨i, hi⟩, hget⟩
      rcases hpref i hi with ⟨m, hm, _⟩
      exact hget ▸ mem_keys_of_find?_some hm

/-- Under the invariant with unique ids, every `ancestors` list is strictly
shorter than the store. -/
theorem ancestors_length_lt {s : Store} (hInv : Inv s)
    {id : Nat} {n : CategoryNode} (hn : find? s id = some n) :
    n.ancestors.length < s.length := by
  rcases ancestors_nodup_sub hInv hn with ⟨hnodup, hsub⟩
  have hsp : (id :: n.ancestors).Subperm (keys s) :=
    List.subperm_of_subset hnodup hsub
  have := hsp.length_le
  simp only [List.length_cons] at this
  have hkeys : (keys s).length = s.length := List.length_map _ _
  omega

end CountingLemmas

/-! ## The parent chain

`parentChain s fuel p` follows `parent` links upward from a node whose parent
reference is `p`, and returns the chain of ids from the root down to `p`
(`[]` when `p = none`); `none` when a link is dangling or `fuel` runs out. -/

def parentChain (s : Store) : Nat → Option Nat → Option (List Nat)
  | _, none => some []
  | 0, some _ => none
  | fuel + 1, some p =>
    match parentOf s p with
    | none => none
    | some pp => (parentChain s fuel pp).map (fun l => l ++ [p])

theorem parentChain_succ_some (s : Store) (fuel p : Nat) :
    parentChain s (fuel + 1) (some p) =
      match parentOf s p with
      | none => none
      | some pp => (parentChain s fuel pp).map (fun l => l ++ [p]) := rfl

theorem parentChain_congr {s s' : Store} (hpm : ∀ x, parentOf s' x = parentOf s x) :
    ∀ fuel p, parentChain s' fuel p = parentChain s fuel p := by
  intro fuel
  induction fuel with
  | zero =>
    intro p
    cases p <;> rfl
  | succ fuel ih =>
    intro p
    cases p with
    | none => rfl
    | some p =>
      rw [parentChain_succ_some, parentChain_succ_some, hpm]
      cases parentOf s p with
      | none => rfl
      | some pp => simp [ih]

/-- Under the invariant, following parent links from any stored node
reproduces exactly its `ancestors` list, for any sufficient fuel. -/
theorem parentChain_eq_ancestors {s : Store} (hInv : Inv s) :
    ∀ N id n, find? s id = some n → n.ancestors.length ≤ N →
      ∀ fuel, n.ancestors.length ≤ fuel →
        parentChain s fuel n.parent = some n.ancestors := by
  intro N
  induction N with
  | zero =>
    intro id n hn hlen fuel _
    have hl := hInv _ _ hn
    unfold localInv at hl
    cases hp : n.parent with
    | none =>
      rw [hp] at hl
      rw [hl]
      cases fuel <;> rfl
    | some p =>
      rw [hp] at hl
      rcases hl with ⟨pn, _, hanc⟩
      rw [hanc] at hlen
      simp at hlen
  | succ N ih =>
    intro id n hn hlen fuel hfuel
    have hl := hInv _ _ hn
    unfold localInv at hl
    cases hp : n.parent with
    | none =>
      rw [hp] at hl
      rw [hl]
      cases fuel <;> rfl
    | some p =>
      rw [hp] at hl
      rcases hl with ⟨pn, hpn, hanc⟩
      have hplen : n.ancestors.length = pn.ancestors.length + 1 := by rw [hanc]; simp
      rcases fuel with _ | fuel
      · omega
      · have hpp : parentOf s p = some pn.parent := by
          unfold parentOf
          rw [hpn]
          rfl
        rw [parentChain_succ_some, hpp]
        have hrec := ih p pn hpn (by omega) fuel (by omega)
        simp only [hrec, hanc]
        rfl

/-! ## The category controller

Embedding of `src/services/tag-service/controllers/category.controller.js`.
Elasticsearch calls are try/catch-wrapped in the source; their outcome is an
explicit `Bool` argument (`true` = the call succeeds).  Each operation
returns, besides its result and the new store, the list of document ids for
which a SearchIndex write was *attempted*. -/

/-- An Elasticsearch call that either succeeds or throws. -/
def esCall (ok : Bool) : Except String Unit :=
  if ok then .ok () else .error "elasticsearch unavailable"

/-- JS `String.prototype.trim()`: strip leading and trailing whitespace. -/
def jsTrim (s : String) : String :=
  String.mk (((s.toList.dropWhile Char.isWhitespace).reverse.dropWhile
    Char.isWhitespace).reverse)

/-- JS `String.prototype.toLowerCase()` (over the characters we model). -/
def jsToLower (s : String) : String := String.mk (s.toList.map Char.toLower)

/-- `CategorySchema.pre('save')` slug computation:
`name.trim().toLowerCase().replace(/\s+/g, '-').replace(/[^\w\-]+/g, '')`. -/
def collapseWsAux : Bool → List Char → List Char
  | _, [] => []
  | inRun, c :: rest =>
    if c.isWhitespace then
      if inRun then collapseWsAux true rest
      else '-' :: collapseWsAux true rest
    else c :: collapseWsAux false rest

def collapseWs (l : List Char) : List Char := collapseWsAux false l

def slugify (name : String) : String :=
  String.mk ((collapseWs (jsToLower (jsTrim name)).toList).filter
    (fun c => c.isAlphanum || c = '_' || c = '-'))

/-- The `CategorySchema.pre('save')` hook on a save that did not modify
`name`: the slug is left alone and `updatedAt` is set to `Date.now()`. -/
def presave (t : Nat) (n : CategoryNode) : CategoryNode := { n with updatedAt := t }

/-- The mutable controller state: the categories collection plus the id the
store will assign to the next inserted document (fresh-ObjectId generation). -/
structure State where
  store : Store
  nextId : Nat
deriving Repr, DecidableEq

inductive CreateResult where
  | duplicateName
  | parentNotFound
  | serverError
  | created (id : Nat) (node : CategoryNode)
deriving Repr, DecidableEq

/-- The document `Category.create` persists: `categoryData` (trimmed name,
description, `createdBy`, optional parent and computed ancestors) plus the
schema defaults and the `pre('save')` hook (slug from the trimmed name,
timestamps). -/
def newCategory (t userId : Nat) (name description : String)
    (parent : Option Nat) (ancestors : List Nat) : CategoryNode :=
  { name := jsTrim name, description := description, slug := slugify (jsTrim name),
    parent := parent, ancestors := ancestors, resourceCount := 0, isActive := true,
    createdBy := userId, createdAt := t, updatedAt := t }

/-- `exports.createCategory`.  `userId` is `req.user.id`; `t` is `Date.now()`.
The `serverError` guard before the insert models the mongoose `required`
validator on `name` and the unique slug index firing inside
`Category.create`. -/
def createCategory (esOk : Bool) (t userId : Nat) (name description : String)
    (parent : Option Nat) (st : State) : CreateResult × State × List Nat :=
  if nameExists st.store (jsTrim name) then (.duplicateName, st, [])
  else
    match parent with
    | some pid =>
      match find? st.store pid with
      | none => (.parentNotFound, st, [])
      | some parentCategory =>
        if jsTrim name = "" || st.store.any (fun e => e.2.slug == slugify (jsTrim name)) then
          (.serverError, st, [])
        else
          match esCall esOk with
          | .ok _ =>
            (.created st.nextId
                (newCategory t userId name description (some pid)
                  (parentCategory.ancestors ++ [pid])),
              ⟨st.store ++
                [(st.nextId, newCategory t userId name description (some pid)
                  (parentCategory.ancestors ++ [pid]))], st.nextId + 1⟩,
              [st.nextId])
          | .error _ =>
            (.created st.nextId
                (newCategory t userId name description (some pid)
                  (parentCategory.ancestors ++ [pid])),
              ⟨st.store ++
                [(st.nextId, newCategory t userId name description (some pid)
                  (parentCategory.ancestors ++ [pid]))], st.nextId + 1⟩,
              [st.nextId])
    | none =>
      if jsTrim name = "" || st.store.any (fun e => e.2.slug == slugify (jsTrim name)) then
        (.serverError, st, [])
      else
        match esCall esOk with
        | .ok _ =>
          (.created st.nextId (newCategory t userId name description none []),
            ⟨st.store ++ [(st.nextId, newCategory t userId name description none [])],
              st.nextId + 1⟩,
            [st.nextId])
        | .error _ =>
          (.created st.nextId (newCategory t userId name description none []),
            ⟨st.store ++ [(st.nextId, newCategory t userId name description none [])],
              st.nextId + 1⟩,
            [st.nextId])

/-- An update request body.  `parent = some none` is an explicit
`parent: null` in the JSON body; `parent = none` means the key is absent.
Other schema fields behave like `description`. -/
structure UpdatePayload where
  name : Option String := none
  description : Option String := none
  parent : Option (Option Nat) := none
  resourceCount : Option Nat := none
deriving Repr, DecidableEq

/-- `req.body.name && req.body.name.trim() !== category.name` followed by the
global `findOne({name})` duplicate probe. -/
def renameClash (s : Store) (category : CategoryNode) (bodyName : Option String) : Bool :=
  match bodyName with
  | none => false
  | some nm => nm != "" && jsTrim nm != category.name && nameExists s (jsTrim nm)

/-- `runValidators: true`: the `required` validator on `name` rejects an
empty trimmed name. -/
def nameValidationFails (bodyName : Option String) : Bool :=
  match bodyName with
  | none => false
  | some nm => jsTrim nm == ""

inductive UpdateResult where
  | notFound
  | notAuthorized
  | duplicateName
  | validationError
  | updated (node : CategoryNode)
deriving Repr, DecidableEq

/-- `exports.updateCategory`.  `findByIdAndUpdate` applies
`{...req.body, updatedAt: Date.now()}` after a *truthy* `parent` has been
deleted from the body; it runs no `pre('save')` hook, so the slug is not
recomputed. -/
def updateCategory (admin esOk : Bool) (t id : Nat) (body : UpdatePayload)
    (s : Store) : UpdateResult × Store × List Nat :=
  match find? s id with
  | none => (.notFound, s, [])
  | some category =>
    if !admin then (.notAuthorized, s, [])
    else if renameClash s category body.name then (.duplicateName, s, [])
    else
      -- "We don't allow changing the parent through this endpoint":
      -- `if (req.body.parent) delete req.body.parent` removes only a truthy value.
      let body1 :=
        match body.parent with
        | some (some _) => { body with parent := none }
        | _ => body
      if nameValidationFails body1.name then (.validationError, s, [])
      else
        let node : CategoryNode :=
          { category with
            name := match body1.name with | some nm => jsTrim nm | none => category.name,
            description := body1.description.getD category.description,
            parent := match body1.parent with | some p => p | none => category.parent,
            resourceCount := body1.resourceCount.getD category.resourceCount,
            updatedAt := t }
        let s' := save s id node
        match esCall esOk with
        | .ok _ => (.updated node, s', [id])
        | .error _ => (.updated node, s', [id])

inductive DeleteResult where
  | notFound
  | notAuthorized
  | hasChildren
  | notEmpty
  | deleted
deriving Repr, DecidableEq

/-- `exports.deleteCategory`. -/
def deleteCategory (admin esOk : Bool) (id : Nat) (s : Store) :
    DeleteResult × Store × List Nat :=
  match find? s id with
  | none => (.notFound, s, [])
  | some category =>
    if !admin then (.notAuthorized, s, [])
    else if !(childrenOf s id).isEmpty then (.hasChildren, s, [])
    else if category.resourceCount > 0 then (.notEmpty, s, [])
    else
      let s' := removeId s id
      match esCall esOk with
      | .ok _ => (.deleted, s', [id])
      | .error _ => (.deleted, s', [id])

/-- The `for (const subcategory of subcategories)` loop body of
`updateSubcategoryAncestors`: for each fetched subcategory, set its
`ancestors` to `parentAncestors ++ [parentId]`, save it (running the
`pre('save')` hook), and recurse (`descend`) into its own subcategories. -/
def repairSibs (t : Nat) (descend : Store → Nat → List Nat → Store) :
    List (Nat × CategoryNode) → Store → Nat → List Nat → Store
  | [], s, _, _ => s
  | (cid, cn) :: rest, s, parentId, parentAncestors =>
    let newAnc := parentAncestors ++ [parentId]
    let s1 := save s cid (presave t { cn with ancestors := newAnc })
    let s2 := descend s1 cid newAnc
    repairSibs t descend rest s2 parentId parentAncestors

/-- `updateSubcategoryAncestors(parentId, parentAncestors)`: fetch the
subcategories of `parentId` and recursively recompute every descendant's
`ancestors`.  The source recursion is bounded only by tree depth; the `fuel`
argument bounds the recursion depth for Lean and is shown sufficient at
every call site (`repairSibs_spec` below: the store size exceeds the depth
of every acyclic subtree). -/
def updateSubcategoryAncestors (t : Nat) : Nat → Store → Nat → List Nat → Store
  | 0, s, _, _ => s
  | fuel + 1, s, parentId, parentAncestors =>
    repairSibs t (fun s' c a => updateSubcategoryAncestors t fuel s' c a)
      (childrenOf s parentId) s parentId parentAncestors

inductive MoveResult where
  | notAuthorized
  | notFound
  | parentNotFound
  | cycleError
  | moved (node : CategoryNode)
deriving Repr, DecidableEq

/-- `exports.moveCategory`.  `newParentId = none` is the `'root'` sentinel. -/
def moveCategory (admin esOk : Bool) (t categoryId : Nat) (newParentId : Option Nat)
    (s : Store) : MoveResult × Store × List Nat :=
  if !admin then (.notAuthorized, s, [])
  else
    match find? s categoryId with
    | none => (.notFound, s, [])
    | some category =>
      match newParentId with
      | none =>
        let category1 := presave t { category with parent := none, ancestors := [] }
        let s1 := save s categoryId category1
        let s2 := updateSubcategoryAncestors t s1.length s1 categoryId category1.ancestors
        match esCall esOk with
        | .ok _ => (.moved category1, s2, [categoryId])
        | .error _ => (.moved category1, s2, [categoryId])
      | some pid =>
        match find? s pid with
        | none => (.parentNotFound, s, [])
        | some newParent =>
          if categoryId ∈ newParent.ancestors ∨ pid = categoryId then
            (.cycleError, s, [])
          else
            let category1 := presave t
              { category with parent := some pid, ancestors := newParent.ancestors ++ [pid] }
            let s1 := save s categoryId category1
            let s2 := updateSubcategoryAncestors t s1.length s1 categoryId category1.ancestors
            match esCall esOk with
            | .ok _ => (.moved category1, s2, [categoryId])
            | .error _ => (.moved category1, s2, [categoryId])

/-! ## Correctness of the recursive descendant repair -/

/-- `x` is one of the listed ids, or a descendant of one (the region of the
store a repair pass over `cids` may touch). -/
def TouchedBy (S : Store) (cids : List Nat) (x : Nat) : Prop :=
  x ∈ cids ∨ ∃ c ∈ cids, Desc S c x

section RepairLemmas

theorem childOf_of_find? {s S : Store} (hpm : ∀ x, parentOf s x = parentOf S x)
    {c pid : Nat} {n : CategoryNode} (hc : find? s c = some n)
    (hp : n.parent = some pid) : childOf S c pid := by
  unfold childOf
  rw [← hpm]
  unfold parentOf
  rw [hc]
  show some n.parent = some (some pid)
  rw [hp]

theorem repairSibs_nil (t : Nat) (d : Store → Nat → List Nat → Store)
    (s : Store) (pid : Nat) (panc : List Nat) :
    repairSibs t d [] s pid panc = s := rfl

theorem repairSibs_cons (t : Nat) (d : Store → Nat → List Nat → Store) (cid : Nat)
    (cn : CategoryNode) (rest : List (Nat × CategoryNode)) (s : Store) (pid : Nat)
    (panc : List Nat) :
    repairSibs t d ((cid, cn) :: rest) s pid panc =
      repairSibs t d rest
        (d (save s cid (presave t { cn with ancestors := panc ++ [pid] })) cid (panc ++ [pid]))
        pid panc := rfl

theorem updateSubcategoryAncestors_succ (t f : Nat) (s : Store) (pid : Nat)
    (panc : List Nat) :
    updateSubcategoryAncestors t (f + 1) s pid panc =
      repairSibs t (updateSubcategoryAncestors t f) (childrenOf s pid) s pid panc := rfl

/-- Correctness of the repair loop.  From a store `s` whose key set and parent
structure agree with the reference store `S`, processing the pending child
list `cs` of `pid` (current in `s`) with enough fuel for the subtree depth:
the result keeps keys and parent links, leaves every document outside the
pending region untouched, and establishes the local ancestors invariant on
every document of the pending region. -/
theorem repairSibs_spec (S : Store) (t : Nat) :
    ∀ fuel cs s pid panc pn,
      keys s = keys S →
      (∀ x, parentOf s x = parentOf S x) →
      (keys S).Nodup →
      (∀ c n, (c, n) ∈ cs → find? s c = some n ∧ n.parent = some pid) →
      (cs.map Prod.fst).Nodup →
      find? s pid = some pn →
      pn.ancestors = panc →
      (∀ c k, PPath S pid c k → k ≤ fuel + 1) →
      keys (repairSibs t (updateSubcategoryAncestors t fuel) cs s pid panc) = keys S ∧
      (∀ x, parentOf (repairSibs t (updateSubcategoryAncestors t fuel) cs s pid panc) x =
        parentOf S x) ∧
      (∀ x, ¬ TouchedBy S (cs.map Prod.fst) x →
        find? (repairSibs t (updateSubcategoryAncestors t fuel) cs s pid panc) x = find? s x) ∧
      (∀ x, TouchedBy S (cs.map Prod.fst) x →
        ∃ nx, find? (repairSibs t (updateSubcategoryAncestors t fuel) cs s pid panc) x = some nx ∧
          localInv (repairSibs t (updateSubcategoryAncestors t fuel) cs s pid panc) nx) := by
  intro fuel
  induction fuel using Nat.strong_induction_on with
  | _ fuel IHfuel =>
  intro cs
  induction cs with
  | nil =>
    intro s pid panc pn hkeys hpm hSnodup hcs hnodup hpn hanc hfuel
    rw [repairSibs_nil]
    refine ⟨hkeys, hpm, fun x _ => rfl, fun x hx => ?_⟩
    rcases hx with hx | ⟨c, hc, _⟩
    · simp at hx
    · simp at hc
  | cons hd rest IHcs =>
    obtain ⟨cid, cn⟩ := hd
    intro s pid panc pn hkeys hpm hSnodup hcs hnodup hpn hanc hfuel
    -- the head entry is a current child of pid
    have hcid := hcs cid cn (List.mem_cons_self _ _)
    have hchild : childOf S cid pid := childOf_of_find? hpm hcid.1 hcid.2
    have hnocyc := no_cycle_of_bound hfuel
    have hcidpid : cid ≠ pid := by
      intro h
      exact hnocyc pid (Or.inl rfl) 1 (PPath.single (h ▸ hchild))
    -- abbreviations for the intermediate stores
    set newAnc := panc ++ [pid] with hnewAnc
    set saved := presave t { cn with ancestors := newAnc } with hsaved
    set s1 := save s cid saved with hs1
    have hkeys1 : keys s1 = keys S := by rw [hs1, keys_save, hkeys]
    have hk1nodup : (keys s1).Nodup := by rw [hkeys1]; exact hSnodup
    have hfind1cid : find? s1 cid = some saved := find?_save_self saved hcid.1
    have hpm1 : ∀ x, parentOf s1 x = parentOf S x := by
      intro x
      by_cases hx : x = cid
      · rw [hx, ← hpm cid]
        unfold parentOf
        rw [hfind1cid, hcid.1, hsaved]
        rfl
      · unfold parentOf
        rw [hs1, find?_save_ne saved hx]
        exact hpm x
    -- the recursive call into cid's subtree
    have hcs1 : ∀ c n, (c, n) ∈ childrenOf s1 cid →
        find? s1 c = some n ∧ n.parent = some cid := by
      intro c n hm
      exact childrenOf_current hk1nodup hm
    set s2 := updateSubcategoryAncestors t fuel s1 cid newAnc with hs2
    have hG₂ : keys s2 = keys S ∧ (∀ x, parentOf s2 x = parentOf S x) ∧
        (∀ x, ¬ TouchedBy S ((childrenOf s1 cid).map Prod.fst) x →
          find? s2 x = find? s1 x) ∧
        (∀ x, TouchedBy S ((childrenOf s1 cid).map Prod.fst) x →
          ∃ nx, find? s2 x = some nx ∧ localInv s2 nx) := by
      rcases fuel with _ | f
      · -- fuel exhausted: cid can have no children, the descent is a no-op
        have hnochildren : childrenOf s1 cid = [] := by
          cases hch : childrenOf s1 cid with
          | nil => rfl
          | cons e l =>
            exfalso
            have hmem : e ∈ childrenOf s1 cid := by
              rw [hch]
              exact List.mem_cons_self _ _
            have hcur := childrenOf_current hk1nodup hmem
            have hce : childOf S e.1 cid := childOf_of_find? hpm1 hcur.1 hcur.2
            have := hfuel e.1 2 (PPath.prepend hchild (PPath.single hce))
            omega
        have hs2eq : s2 = s1 := hs2.trans rfl
        refine ⟨by rw [hs2eq]; exact hkeys1, by rw [hs2eq]; exact hpm1,
          fun x _ => by rw [hs2eq], fun x hx => ?_⟩
        exfalso
        rcases hx with hm | ⟨c, hc, _⟩
        · rw [hnochildren] at hm
          simp at hm
        · rw [hnochildren] at hc
          simp at hc
      · -- descend with one less fuel unit
        have hfuel' : ∀ c k, PPath S cid c k → k ≤ f + 1 := by
          intro c k hp
          have := hfuel c (k + 1) (PPath.prepend hchild hp)
          omega
        have hunfold : s2 = repairSibs t (updateSubcategoryAncestors t f)
            (childrenOf s1 cid) s1 cid newAnc := hs2.trans rfl
        rw [hunfold]
        exact IHfuel f (by omega) (childrenOf s1 cid) s1 cid newAnc saved hkeys1 hpm1 hSnodup
          hcs1 (childrenOf_keys_nodup cid hk1nodup) hfind1cid rfl hfuel'
    obtain ⟨hG1₂, hG2₂, hG3₂, hG4₂⟩ := hG₂
    -- the ids in the recursive call region are exactly the children of cid
    have hcs1ids : ∀ c, c ∈ (childrenOf s1 cid).map Prod.fst ↔ childOf S c cid := by
      intro c
      constructor
      · intro hm
        rcases List.mem_map.mp hm with ⟨⟨c', n'⟩, hmem, hc'⟩
        cases hc'
        have := childrenOf_current hk1nodup hmem
        exact childOf_of_find? hpm1 this.1 this.2
      · intro hc
        have : parentOf s1 c = some (some cid) := by rw [hpm1]; exact hc
        exact childrenOf_complete this
    have htouch1 : ∀ x, TouchedBy S ((childrenOf s1 cid).map Prod.fst) x ↔ Desc S cid x := by
      intro x
      unfold TouchedBy
      constructor
      · rintro (hx | ⟨c, hc, hdesc⟩)
        · exact ⟨1, PPath.single ((hcs1ids x).mp hx)⟩
        · rcases hdesc with ⟨k, hp⟩
          exact ⟨k + 1, PPath.prepend ((hcs1ids c).mp hc) hp⟩
      · intro hdesc
        rcases desc_iff_child_or.mp hdesc with ⟨c1, hc1, hx | hdesc'⟩
        · exact Or.inl (hx ▸ (hcs1ids c1).mpr hc1)
        · exact Or.inr ⟨c1, (hcs1ids c1).mpr hc1, hdesc'⟩
    -- children of pid other than cid are outside cid's region
    have hnodesc_sib : ∀ c', childOf S c' pid → ¬ Desc S cid c' := by
      intro c' hc' hdesc
      rcases hdesc with ⟨k, hp⟩
      rcases hp.last_decomp with ⟨hk1, hcc⟩ | ⟨b, k', hk, hp', hcb⟩
      · exact hcidpid (childOf_fun hcc hc')
      · have hb : b = pid := childOf_fun hcb hc'
        exact hnocyc pid (Or.inl rfl) (k' + 1) (PPath.prepend hchild (hb ▸ hp'))
    have hpid_notdesc : ¬ Desc S cid pid := by
      rintro ⟨k, hp⟩
      exact hnocyc pid (Or.inl rfl) (k + 1) (PPath.prepend hchild hp)
    have hcid_notdesc : ¬ Desc S cid cid := by
      rintro ⟨k, hp⟩
      exact hnocyc cid (Or.inr ⟨1, PPath.single hchild⟩) k hp
    -- pid and cid survive the recursive call untouched
    have hfind2pid : find? s2 pid = some pn := by
      rw [hG3₂ pid (fun h => hpid_notdesc ((htouch1 pid).mp h)), hs1,
        find?_save_ne saved (fun h => hcidpid h.symm)]
      exact hpn
    have hfind2cid : find? s2 cid = some saved := by
      rw [hG3₂ cid (fun h => hcid_notdesc ((htouch1 cid).mp h))]
      exact hfind1cid
    -- the tail entries are still current in s2
    have hrest : ∀ c n, (c, n) ∈ rest → find? s2 c = some n ∧ n.parent = some pid := by
      intro c n hm
      have horig := hcs c n (List.mem_cons_of_mem _ hm)
      have hcmem : c ∈ rest.map Prod.fst := List.mem_map.mpr ⟨(c, n), hm, rfl⟩
      have hccid : c ≠ cid := by
        intro h
        subst h
        exact (List.nodup_cons.mp hnodup).1 hcmem
      have hcchild : childOf S c pid := childOf_of_find? hpm horig.1 horig.2
      refine ⟨?_, horig.2⟩
      rw [hG3₂ c (fun h => hnodesc_sib c hcchild ((htouch1 c).mp h)), hs1,
        find?_save_ne saved hccid]
      exact horig.1
    -- the tail call
    obtain ⟨hG1r, hG2r, hG3r, hG4r⟩ :=
      IHcs s2 pid panc pn hG1₂ hG2₂ hSnodup hrest
        (List.nodup_cons.mp hnodup).2 hfind2pid hanc hfuel
    -- pid is outside the tail region
    have hpid_nottouch_rest : ¬ TouchedBy S (rest.map Prod.fst) pid := by
      rintro (hx | ⟨c, hc, hdesc⟩)
      · rcases List.mem_map.mp hx with ⟨⟨c', n'⟩, hmem, hc'⟩
        have hcur := hcs c' n' (List.mem_cons_of_mem _ hmem)
        have hcc : childOf S c' pid := childOf_of_find? hpm hcur.1 hcur.2
        exact hnocyc pid (Or.inl rfl) 1 (PPath.single (hc' ▸ hcc))
      · rcases List.mem_map.mp hc with ⟨⟨c', n'⟩, hmem, hc'⟩
        have horig := hcs c' n' (List.mem_cons_of_mem _ hmem)
        have hcc : childOf S c' pid := childOf_of_find? hpm horig.1 horig.2
        rcases hdesc with ⟨k, hp⟩
        exact hnocyc pid (Or.inl rfl) (k + 1) (PPath.prepend (hc' ▸ hcc) hp)
    rw [repairSibs_cons, ← hnewAnc, ← hsaved, ← hs1, ← hs2]
    refine ⟨hG1r, hG2r, ?_, ?_⟩
    · -- untouched region
      intro x hx
      have hxcid : x ≠ cid := by
        intro h
        exact hx (Or.inl (by rw [List.map_cons, h]; exact List.mem_cons_self _ _))
      have hxrest : ¬ TouchedBy S (rest.map Prod.fst) x := by
        rintro (hm | ⟨c, hc, hdesc⟩)
        · exact hx (Or.inl (by rw [List.map_cons]; exact List.mem_cons_of_mem _ hm))
        · exact hx (Or.inr ⟨c, by rw [List.map_cons]; exact List.mem_cons_of_mem _ hc, hdesc⟩)
      have hxcs1 : ¬ TouchedBy S ((childrenOf s1 cid).map Prod.fst) x := by
        intro h
        exact hx (Or.inr ⟨cid, by rw [List.map_cons]; exact List.mem_cons_self _ _,
          (htouch1 x).mp h⟩)
      rw [hG3r x hxrest, hG3₂ x hxcs1, hs1, find?_save_ne saved hxcid]
    · -- touched region
      intro x hx
      by_cases hxrest : TouchedBy S (rest.map Prod.fst) x
      · exact hG4r x hxrest
      · -- x is cid or a descendant of cid
        have hx' : x = cid ∨ Desc S cid x := by
          rcases hx with hm | ⟨c, hc, hdesc⟩
          · rw [List.map_cons] at hm
            rcases List.mem_cons.mp hm with h | h
            · exact Or.inl h
            · exact absurd (Or.inl h) hxrest
          · rw [List.map_cons] at hc
            rcases List.mem_cons.mp hc with h | h
            · have h' : c = cid := h
              exact Or.inr (h' ▸ hdesc)
            · exact absurd (Or.inr ⟨c, h, hdesc⟩) hxrest
        rcases hx' with rfl | hdesc
        · -- x = cid: it carries the freshly computed ancestors
          refine ⟨saved, by rw [hG3r _ hxrest]; exact hfind2cid, ?_⟩
          unfold localInv
          have hsp : saved.parent = cn.parent := by rw [hsaved]; rfl
          have hsa : saved.ancestors = newAnc := by rw [hsaved]; rfl
          rw [hsp, hcid.2]
          refine ⟨pn, ?_, ?_⟩
          · rw [hG3r pid hpid_nottouch_rest]
            exact hfind2pid
          · rw [hsa, hnewAnc, hanc]
        · -- x strictly below cid: repaired by the recursive call
          rcases hG4₂ x ((htouch1 x).mpr hdesc) with ⟨nx, hfind, hlocal⟩
          refine ⟨nx, by rw [hG3r x hxrest]; exact hfind, ?_⟩
          apply localInv_congr hlocal
          intro p hp
          -- the parent of x is inside cid's region or cid itself, never in
          -- the tail region
          have hxp : childOf S x p := by
            apply childOf_of_find? hG2₂ hfind hp
          have hp_nottouch : ¬ TouchedBy S (rest.map Prod.fst) p := by
            rintro (hm | ⟨c, hc, hdesc'⟩)
            · rcases List.mem_map.mp hm with ⟨⟨c', n'⟩, hmem, hc'⟩
              cases hc'
              exact hxrest (Or.inr ⟨c', List.mem_map.mpr ⟨(c', n'), hmem, rfl⟩,
                ⟨1, PPath.single hxp⟩⟩)
            · exact hxrest (Or.inr ⟨c, hc, by
                rcases hdesc' with ⟨k, hpp⟩
                exact ⟨k + 1, PPath.step hpp hxp⟩⟩)
          rw [hG3r p hp_nottouch]

/-- Full correctness of `updateSubcategoryAncestors`: started on a store
whose only locally broken documents are children of `pid` (whose own stored
document carries the ancestors list being pushed down), with fuel exceeding
every descending path from `pid`, the repair establishes the invariant
everywhere and changes no key and no parent link. -/
theorem updateSubcategoryAncestors_inv
    {s : Store} {pid t fuel : Nat} {panc : List Nat} {pn : CategoryNode}
    (hSnodup : (keys s).Nodup)
    (hInvD : ∀ x n, find? s x = some n → n.parent ≠ some pid → localInv s n)
    (hpn : find? s pid = some pn)
    (hanc : pn.ancestors = panc)
    (hfuel : ∀ c k, PPath s pid c k → k < fuel) :
    Inv (updateSubcategoryAncestors t fuel s pid panc) ∧
    keys (updateSubcategoryAncestors t fuel s pid panc) = keys s ∧
    (∀ x, parentOf (updateSubcategoryAncestors t fuel s pid panc) x = parentOf s x) := by
  have hnocyc := no_cycle_of_bound (fun c k hp => Nat.le_of_lt (hfuel c k hp))
  rcases fuel with _ | f
  · -- no fuel: pid can have no children at all
    have hnochild : ∀ c, ¬ childOf s c pid := by
      intro c hc
      have := hfuel c 1 (PPath.single hc)
      omega
    show Inv s ∧ keys s = keys s ∧ _
    refine ⟨?_, rfl, fun _ => rfl⟩
    intro x nx hx
    by_cases hp : nx.parent = some pid
    · exact absurd (childOf_of_find? (fun _ => rfl) hx hp) (hnochild x)
    · exact hInvD x nx hx hp
  · show Inv (repairSibs t (updateSubcategoryAncestors t f) (childrenOf s pid) s pid panc) ∧ _
    have hcids : ∀ c, c ∈ (childrenOf s pid).map Prod.fst ↔ childOf s c pid := by
      intro c
      constructor
      · intro hm
        rcases List.mem_map.mp hm with ⟨⟨c', n'⟩, hmem, hc'⟩
        have := childrenOf_current hSnodup hmem
        exact hc' ▸ childOf_of_find? (fun _ => rfl) this.1 this.2
      · intro hc
        exact childrenOf_complete hc
    obtain ⟨hK, hP, hU, hT⟩ :=
      repairSibs_spec s t f (childrenOf s pid) s pid panc pn rfl (fun _ => rfl) hSnodup
        (fun c n hm => childrenOf_current hSnodup hm)
        (childrenOf_keys_nodup pid hSnodup) hpn hanc
        (fun c k hp => by have := hfuel c k hp; omega)
    refine ⟨?_, hK, hP⟩
    intro x nx hx
    by_cases htouch : TouchedBy s ((childrenOf s pid).map Prod.fst) x
    · rcases hT x htouch with ⟨nx', hfind', hlocal⟩
      rw [hx] at hfind'
      cases hfind'
      exact hlocal
    · rw [hU x htouch] at hx
      have hpnotpid : nx.parent ≠ some pid := by
        intro hp
        exact htouch (Or.inl ((hcids x).mpr (childOf_of_find? (fun _ => rfl) hx hp)))
      have hlocal := hInvD x nx hx hpnotpid
      apply localInv_congr hlocal
      intro p hp
      have hxp : childOf s x p := childOf_of_find? (fun _ => rfl) hx hp
      apply hU p
      rintro (hm | ⟨c, hc, hdesc⟩)
      · exact htouch (Or.inr ⟨p, hm, ⟨1, PPath.single hxp⟩⟩)
      · exact htouch (Or.inr ⟨c, hc, by
          rcases hdesc with ⟨k, hpp⟩
          exact ⟨k + 1, PPath.step hpp hxp⟩⟩)

end RepairLemmas

section MoveLemmas

/-- Path transfer for a move: after re-parenting `cid` in a store `s1` that
otherwise agrees with an invariant store `s`, and where the new parent (if
any) passed the cycle check, every descending path from `cid` in `s1` already
existed in `s`, avoids `cid`, and ends at a node listing `cid` among its old
ancestors. -/
theorem ppath_transfer {s s1 : Store} {cid : Nat}
    (hInv : Inv s)
    (hne : ∀ x, x ≠ cid → find? s1 x = find? s x)
    (hq : parentOf s1 cid = some none ∨
      ∃ tgt ntgt, parentOf s1 cid = some (some tgt) ∧ tgt ≠ cid ∧
        find? s tgt = some ntgt ∧ cid ∉ ntgt.ancestors) :
    ∀ {c k}, PPath s1 cid c k →
      c ≠ cid ∧ PPath s cid c k ∧ ∃ nc, find? s c = some nc ∧ cid ∈ nc.ancestors := by
  have hpm_ne : ∀ x, x ≠ cid → parentOf s1 x = parentOf s x := by
    intro x hx
    unfold parentOf
    rw [hne x hx]
  intro c k hp
  induction hp with
  | @single c1 h1 =>
    have hc : c1 ≠ cid := by
      intro h
      rw [h] at h1
      unfold childOf at h1
      rcases hq with hq | ⟨tgt, ntgt, hq, htgt, _, _⟩
      · rw [h1] at hq
        cases hq
      · rw [h1] at hq
        cases hq
        exact htgt rfl
    have h1' : childOf s c1 cid := by
      unfold childOf at h1 ⊢
      rw [← hpm_ne c1 hc]
      exact h1
    rcases Option.map_eq_some'.mp h1' with ⟨nc, hnc, hparent⟩
    have hlocal := hInv _ _ hnc
    unfold localInv at hlocal
    rw [hparent] at hlocal
    rcases hlocal with ⟨pn, _, hancs⟩
    exact ⟨hc, PPath.single h1', nc, hnc, by rw [hancs]; simp⟩
  | @step b c1 k1 hpb h2 ih =>
    rcases ih with ⟨hb, hpb', nb, hnb, hcidmem⟩
    have hc : c1 ≠ cid := by
      intro h
      rw [h] at h2
      unfold childOf at h2
      rcases hq with hq | ⟨tgt, ntgt, hq, _, hntgt, hnmem⟩
      · rw [h2] at hq
        cases hq
      · rw [h2] at hq
        cases hq
        rw [hnb] at hntgt
        cases hntgt
        exact hnmem hcidmem
    have h2' : childOf s c1 b := by
      unfold childOf at h2 ⊢
      rw [← hpm_ne c1 hc]
      exact h2
    rcases Option.map_eq_some'.mp h2' with ⟨nc, hnc, hparent⟩
    have hlocal := hInv _ _ hnc
    unfold localInv at hlocal
    rw [hparent] at hlocal
    rcases hlocal with ⟨pn, hpn', hancs⟩
    rw [hnb] at hpn'
    cases hpn'
    refine ⟨hc, PPath.step hpb' h2', nc, hnc, ?_⟩
    rw [hancs]
    exact List.mem_append_left _ hcidmem

/-- Bound on descending paths in the invariant store: any path from a stored
node is shorter than the store. -/
theorem ppath_length_lt {s : Store} (hInv : Inv s) {a : Nat} {na : CategoryNode}
    (hna : find? s a = some na) {c k : Nat} (hp : PPath s a c k) :
    k < s.length := by
  have hc : ∃ nc, find? s c = some nc := by
    rcases hp.last_decomp with ⟨_, hcc⟩ | ⟨b, k', _, _, hcc⟩ <;>
      · unfold childOf at hcc
        rcases Option.map_eq_some'.mp hcc with ⟨nc, hnc, _⟩
        exact ⟨nc, hnc⟩
  rcases hc with ⟨nc, hnc⟩
  have hlen := ppath_ancestors_length hInv hp na nc hna hnc
  have := ancestors_length_lt hInv hnc
  omega

end MoveLemmas

section AppendLemmas

theorem find?_append_of_some {s l : Store} {x : Nat} {m : CategoryNode}
    (h : find? s x = some m) : find? (s ++ l) x = some m := by
  induction s with
  | nil => simp [find?] at h
  | cons e rest ih =>
    rw [List.cons_append, find?_cons]
    rw [find?_cons] at h
    by_cases he : e.1 = x
    · rwa [if_pos he] at h ⊢
    · rw [if_neg he] at h ⊢
      exact ih h

theorem find?_append_of_none {s l : Store} {x : Nat}
    (h : find? s x = none) : find? (s ++ l) x = find? l x := by
  induction s with
  | nil => rfl
  | cons e rest ih =>
    rw [List.cons_append, find?_cons]
    rw [find?_cons] at h
    by_cases he : e.1 = x
    · rw [if_pos he] at h
      cases h
    · rw [if_neg he] at h ⊢
      exact ih h

theorem keys_append (s l : Store) : keys (s ++ l) = keys s ++ keys l :=
  List.map_append _ _ _

end AppendLemmas

/-! ## Decidable form of the invariant (for concrete stores) -/

/-- Executable check of `localInv`. -/
def localInvB (s : Store) (n : CategoryNode) : Bool :=
  match n.parent with
  | none => n.ancestors == []
  | some p => (find? s p).map (fun pn => pn.ancestors ++ [p]) == some n.ancestors

theorem localInvB_localInv {s : Store} {n : CategoryNode}
    (h : localInvB s n = true) : localInv s n := by
  unfold localInvB at h
  unfold localInv
  cases hp : n.parent with
  | none =>
    rw [hp] at h
    exact eq_of_beq h
  | some p =>
    rw [hp] at h
    have h' := eq_of_beq h
    cases hfind : find? s p with
    | none =>
      rw [hfind] at h'
      cases h'
    | some pn =>
      rw [hfind] at h'
      exact ⟨pn, hfind, (Option.some.inj h').symm⟩

/-- A concrete store whose every entry passes the executable check satisfies
the invariant. -/
theorem inv_of_forall_mem {s : Store}
    (h : ∀ e ∈ s, localInvB s e.2 = true) : Inv s := by
  intro id n hfind
  exact localInvB_localInv (h (id, n) (find?_some_mem hfind))

/-! ## Operation sequences (for the tree invariant) -/

/-- One category-tree operation, as issued through the controller: a create
or a move, with its wall-clock time and principal. -/
inductive Op where
  | createOp (t userId : Nat) (name description : String) (parent : Option Nat)
  | moveOp (t : Nat) (admin : Bool) (id : Nat) (target : Option Nat)

/-- Run one operation against the state, keeping whatever state the
controller leaves behind (failed operations leave the store untouched). -/
def runOp (st : State) (op : Op) : State :=
  match op with
  | .createOp t uid nm ds p => (createCategory true t uid nm ds p st).2.1
  | .moveOp t adm id tgt => ⟨(moveCategory adm true t id tgt st.store).2.1, st.nextId⟩

/-- Run a sequence of operations from the empty store. -/
def runOps (ops : List Op) : State := ops.foldl runOp ⟨[], 0⟩

/-! ## Invariant preservation by the controller operations -/

section Preservation

/-- Common core of the move-preservation argument: after the root save of
the re-parented node, the repair re-establishes the invariant in full. -/
theorem move_save_repair_inv {s : Store} (hSnodup : (keys s).Nodup) (hInv : Inv s)
    {cid : Nat} {category : CategoryNode} (hfind : find? s cid = some category)
    (t : Nat) (category1 : CategoryNode)
    (hlocal1 : localInv (save s cid category1) category1)
    (hq : parentOf (save s cid category1) cid = some none ∨
      ∃ tgt ntgt, parentOf (save s cid category1) cid = some (some tgt) ∧ tgt ≠ cid ∧
        find? s tgt = some ntgt ∧ cid ∉ ntgt.ancestors) :
    Inv (updateSubcategoryAncestors t (save s cid category1).length
      (save s cid category1) cid category1.ancestors) ∧
    keys (updateSubcategoryAncestors t (save s cid category1).length
      (save s cid category1) cid category1.ancestors) = keys s := by
  set s1 := save s cid category1 with hs1
  have hk1 : keys s1 = keys s := by rw [hs1, keys_save]
  have hfind1 : find? s1 cid = some category1 := find?_save_self category1 hfind
  have hne : ∀ x, x ≠ cid → find? s1 x = find? s x := by
    intro x hx
    rw [hs1, find?_save_ne category1 hx]
  have hInvD : ∀ x n, find? s1 x = some n → n.parent ≠ some cid → localInv s1 n := by
    intro x n hx hnp
    by_cases hxc : x = cid
    · rw [hxc, hfind1] at hx
      cases hx
      exact hlocal1
    · rw [hne x hxc] at hx
      apply localInv_congr (hInv x n hx)
      intro p hp
      have hpc : p ≠ cid := by
        intro h
        exact hnp (by rw [hp, h])
      exact hne p hpc
  have hfuel : ∀ c k, PPath s1 cid c k → k < s1.length := by
    intro c k hp
    rcases ppath_transfer hInv hne hq hp with ⟨_, hp', _⟩
    have hval := ppath_length_lt hInv hfind hp'
    rw [hs1, length_save]
    exact hval
  obtain ⟨hI, hK, _⟩ :=
    updateSubcategoryAncestors_inv (t := t) (by rw [hk1]; exact hSnodup) hInvD hfind1 rfl hfuel
  exact ⟨hI, by rw [hK, hk1]⟩

/-- `moveCategory` preserves the ancestors invariant and the key set: every
branch either leaves the store alone or re-parents one node behind the cycle
check and repairs its subtree. -/
theorem moveCategory_inv {s : Store} (hSnodup : (keys s).Nodup) (hInv : Inv s)
    (admin esOk : Bool) (t cid : Nat) (target : Option Nat) :
    Inv (moveCategory admin esOk t cid target s).2.1 ∧
    keys (moveCategory admin esOk t cid target s).2.1 = keys s := by
  cases admin with
  | false => exact ⟨hInv, rfl⟩
  | true =>
    cases hfind : find? s cid with
    | none =>
      have hstep : moveCategory true esOk t cid target s = (.notFound, s, []) := by
        unfold moveCategory
        rw [hfind]
        rfl
      rw [hstep]
      exact ⟨hInv, rfl⟩
    | some category =>
      cases target with
      | none =>
        have hstep : moveCategory true esOk t cid none s =
            (let category1 := presave t { category with parent := none, ancestors := [] }
             let s1 := save s cid category1
             let s2 := updateSubcategoryAncestors t s1.length s1 cid category1.ancestors
             match esCall esOk with
             | .ok _ => (.moved category1, s2, [cid])
             | .error _ => (.moved category1, s2, [cid])) := by
          unfold moveCategory
          rw [hfind]
          rfl
        rw [hstep]
        have hcore := move_save_repair_inv hSnodup hInv hfind t
          (presave t { category with parent := none, ancestors := [] })
          (by unfold localInv presave; rfl)
          (Or.inl (by
            unfold parentOf
            rw [find?_save_self _ hfind]
            rfl))
        cases esCall esOk with
        | ok u => exact hcore
        | error e => exact hcore
      | some pid =>
        cases hpfind : find? s pid with
        | none =>
          have hstep : moveCategory true esOk t cid (some pid) s = (.parentNotFound, s, []) := by
            simp [moveCategory, hfind, hpfind]
          rw [hstep]
          exact ⟨hInv, rfl⟩
        | some newParent =>
          by_cases hcyc : cid ∈ newParent.ancestors ∨ pid = cid
          · have hstep : moveCategory true esOk t cid (some pid) s = (.cycleError, s, []) := by
              simp only [moveCategory, hfind, hpfind]
              rw [if_neg (by decide : ¬ ((!true) = true)), if_pos hcyc]
            rw [hstep]
            exact ⟨hInv, rfl⟩
          · push_neg at hcyc
            have hstep : moveCategory true esOk t cid (some pid) s =
                (let category1 := presave t
                   { category with parent := some pid, ancestors := newParent.ancestors ++ [pid] }
                 let s1 := save s cid category1
                 let s2 := updateSubcategoryAncestors t s1.length s1 cid category1.ancestors
                 match esCall esOk with
                 | .ok _ => (.moved category1, s2, [cid])
                 | .error _ => (.moved category1, s2, [cid])) := by
              simp only [moveCategory, hfind, hpfind]
              rw [if_neg (by decide : ¬ ((!true) = true)),
                if_neg (show ¬ (cid ∈ newParent.ancestors ∨ pid = cid) by push_neg; exact hcyc)]
            rw [hstep]
            have hpidcid : pid ≠ cid := hcyc.2
            have hcore := move_save_repair_inv hSnodup hInv hfind t
              (presave t { category with parent := some pid, ancestors := newParent.ancestors ++ [pid] })
              (by
                unfold localInv presave
                show ∃ pn, find? (save s cid _) pid = some pn ∧
                  newParent.ancestors ++ [pid] = pn.ancestors ++ [pid]
                refine ⟨newParent, ?_, rfl⟩
                rw [find?_save_ne _ hpidcid]
                exact hpfind)
              (Or.inr ⟨pid, newParent, by
                  unfold parentOf
                  rw [find?_save_self _ hfind]
                  rfl,
                hpidcid, hpfind, hcyc.1⟩)
            cases esCall esOk with
            | ok u => exact hcore
            | error e => exact hcore

/-- Well-formedness of the controller state: unique ids, fresh id counter
above every stored id, and the ancestors invariant. -/
def GoodState (st : State) : Prop :=
  (keys st.store).Nodup ∧ (∀ k ∈ keys st.store, k < st.nextId) ∧ Inv st.store

/-- Inserting a fresh document whose `ancestors` were computed by
`computeAncestors` preserves well-formedness. -/
theorem insert_good {st : State} (hg : GoodState st) (node : CategoryNode)
    (hlocal : match node.parent with
      | none => node.ancestors = []
      | some p => ∃ pn, find? st.store p = some pn ∧ node.ancestors = pn.ancestors ++ [p]) :
    GoodState ⟨st.store ++ [(st.nextId, node)], st.nextId + 1⟩ := by
  obtain ⟨hnodup, hbound, hInv⟩ := hg
  have hfresh : st.nextId ∉ keys st.store := by
    intro h
    exact absurd (hbound _ h) (by omega)
  have hfindfresh : find? st.store st.nextId = none := find?_eq_none_of_not_mem_keys hfresh
  have hkeys : keys (st.store ++ [(st.nextId, node)]) = keys st.store ++ [st.nextId] := by
    rw [keys_append]
    rfl
  have hfind_new : ∀ x nx, find? (st.store ++ [(st.nextId, node)]) x = some nx →
      find? st.store x = some nx ∨ (x = st.nextId ∧ nx = node) := by
    intro x nx hx
    cases hold : find? st.store x with
    | some m =>
      rw [find?_append_of_some hold] at hx
      exact Or.inl hx
    | none =>
      rw [find?_append_of_none hold, find?_cons] at hx
      by_cases hxe : st.nextId = x
      · rw [if_pos hxe] at hx
        cases hx
        exact Or.inr ⟨hxe.symm, rfl⟩
      · rw [if_neg hxe] at hx
        cases hx
  refine ⟨?_, ?_, ?_⟩
  · rw [hkeys, List.nodup_append]
    exact ⟨hnodup, List.nodup_singleton _, by
      intro a ha hb
      rcases List.mem_singleton.mp hb with rfl
      exact hfresh ha⟩
  · intro k hk
    rw [hkeys] at hk
    rcases List.mem_append.mp hk with hk | hk
    · have := hbound k hk
      show k < st.nextId + 1
      omega
    · rcases List.mem_singleton.mp hk with rfl
      show st.nextId < st.nextId + 1
      omega
  · intro x nx hx
    rcases hfind_new x nx hx with hold | ⟨rfl, hnode⟩
    · apply localInv_congr (hInv x nx hold)
      intro p hp
      have hlocal' := hInv x nx hold
      unfold localInv at hlocal'
      rw [hp] at hlocal'
      rcases hlocal' with ⟨pn, hpn, _⟩
      rw [find?_append_of_some hpn, hpn]
    · rcases hnode with rfl
      unfold localInv
      cases hp : nx.parent with
      | none =>
        rw [hp] at hlocal
        exact hlocal
      | some p =>
        rw [hp] at hlocal
        rcases hlocal with ⟨pn, hpn, hancs⟩
        exact ⟨pn, find?_append_of_some hpn, hancs⟩

/-- `createCategory` preserves well-formedness. -/
theorem createCategory_good (esOk : Bool) (t uid : Nat) (nm ds : String)
    (parent : Option Nat) {st : State} (hg : GoodState st) :
    GoodState (createCategory esOk t uid nm ds parent st).2.1 := by
  unfold createCategory
  split
  · exact hg
  · split
    · -- parent given: look it up
      split
      · exact hg
      · rename_i parentCategory hpfind
        split
        · exact hg
        · split
          · exact insert_good hg _ ⟨parentCategory, hpfind, rfl⟩
          · exact insert_good hg _ ⟨parentCategory, hpfind, rfl⟩
    · -- root create
      split
      · exact hg
      · split
        · exact insert_good hg _ rfl
        · exact insert_good hg _ rfl

/-- Every controller-issued create/move preserves well-formedness. -/
theorem runOp_good {st : State} (hg : GoodState st) (op : Op) : GoodState (runOp st op) := by
  cases op with
  | createOp t uid nm ds p => exact createCategory_good true t uid nm ds p hg
  | moveOp t adm id tgt =>
    obtain ⟨hI, hK⟩ := moveCategory_inv hg.1 hg.2.2 adm true t id tgt
    show GoodState ⟨(moveCategory adm true t id tgt st.store).2.1, st.nextId⟩
    exact ⟨by show (keys (moveCategory adm true t id tgt st.store).2.1).Nodup
              rw [hK]; exact hg.1,
           by show ∀ k ∈ keys (moveCategory adm true t id tgt st.store).2.1, k < st.nextId
              rw [hK]; exact hg.2.1,
           hI⟩

/-- Any sequence of create/move operations from the empty store yields a
well-formed state. -/
theorem runOps_good (ops : List Op) : GoodState (runOps ops) := by
  have haux : ∀ (l : List Op) (st : State), GoodState st → GoodState (l.foldl runOp st) := by
    intro l
    induction l with
    | nil => intro st h; exact h
    | cons op rest ih =>
      intro st h
      exact ih _ (runOp_good h op)
  exact haux ops ⟨[], 0⟩ ⟨List.nodup_nil, by simp [keys], by intro x n hx; simp [find?] at hx⟩

end Preservation

/-! ## getCategories and the degraded search path -/

/-- What the `parentId` query parameter contributes to `filterQuery`:
absent, the `'root'` sentinel (`parent: null`), or a concrete parent id. -/
def parentMatch (pf : Option (Option Nat)) (e : Nat × CategoryNode) : Bool :=
  match pf with
  | none => true
  | some p => e.2.parent == p

/-- MongoDB's sort, modelled as an insertion sort by the comparator derived
from the `sort`/`order` query parameters. -/
def insertSorted (le : CategoryNode → CategoryNode → Bool) (e : Nat × CategoryNode) :
    List (Nat × CategoryNode) → List (Nat × CategoryNode)
  | [] => [e]
  | f :: rest => if le e.2 f.2 then e :: f :: rest else f :: insertSorted le e rest

def sortDocs (le : CategoryNode → CategoryNode → Bool) :
    List (Nat × CategoryNode) → List (Nat × CategoryNode)
  | [] => []
  | e :: rest => insertSorted le e (sortDocs le rest)

/-- `.skip((page - 1) * limit).limit(limit)`. -/
def paginate (page limit : Nat) (l : List (Nat × CategoryNode)) :
    List (Nat × CategoryNode) :=
  (l.drop ((page - 1) * limit)).take limit

/-- A successful Elasticsearch `fullTextSearch` response as consumed by
`getCategories`: a total and a list of hits. -/
structure ESSearchResult where
  total : Nat
  hits : List (Nat × CategoryNode)
deriving Repr, DecidableEq

inductive GetCategoriesResult where
  | ok (count : Nat) (data : List (Nat × CategoryNode))
  | serverError
deriving Repr, DecidableEq

/-- `exports.getCategories`.  `tm` is MongoDB's `$text` matcher (an external
store capability, a parameter of the embedding), `le` the sort comparator,
`pf` the `parentId` filter, `esOutcome` the outcome of the Elasticsearch
full-text search when a query string is present. -/
def getCategories (tm : String → CategoryNode → Bool)
    (le : CategoryNode → CategoryNode → Bool) (q : String)
    (pf : Option (Option Nat)) (page limit : Nat)
    (esOutcome : Except String ESSearchResult) (s : Store) : GetCategoriesResult :=
  if q ≠ "" then
    match esOutcome with
    | .ok r => .ok r.total r.hits
    | .error _ =>
      -- Elasticsearch search failed, falling back to MongoDB
      let docs := s.filter (fun e => parentMatch pf e && tm q e.2)
      .ok docs.length (paginate page limit (sortDocs le docs))
  else
    let docs := s.filter (parentMatch pf)
    .ok docs.length (paginate page limit (sortDocs le docs))

/-! ## advancedSearch (search-service)

Embedding of `advancedSearch` of
`src/services/search-service/controllers/search.controller.js`.  The
controller builds filters, sort options and aggregation requests (all pure),
then awaits `elasticsearch.fullTextSearch` (when a query string is present)
or `elasticsearch.filteredSearch` — with *no* inner try/catch: any
Elasticsearch failure reaches the outer catch, which forwards the error to
`next(err)`, i.e. to the error-handling middleware, which answers
`500 {success: false}`. -/

structure Facets where
  resourceTypes : List (String × Nat)
  categories : List (String × Nat)
  tags : List (String × Nat)
  verificationStatus : List (String × Nat)
deriving Repr, DecidableEq

/-- A successful Elasticsearch response to the advanced search. -/
structure ESAdvResponse where
  hitIds : List Nat
  total : Nat
  resourceTypeBuckets : List (String × Nat)
  categoryBuckets : List (String × Nat)
  tagBuckets : List (String × Nat)
  verificationBuckets : List (String × Nat)
deriving Repr, DecidableEq

inductive AdvancedSearchResult where
  | ok (items : List Nat) (facets : Facets) (total : Nat)
  | serverError
deriving Repr, DecidableEq

/-- `advancedSearch`: `q = some _` selects the full-text branch, `q = none`
the filter-only branch; either branch awaits the single Elasticsearch call
whose outcome is `esOutcome`, and formats the result on success. -/
def advancedSearch (q : Option String) (esOutcome : Except String ESAdvResponse) :
    AdvancedSearchResult :=
  match q with
  | some _ =>
    match esOutcome with
    | .ok r =>
      .ok r.hitIds
        ⟨r.resourceTypeBuckets, r.categoryBuckets, r.tagBuckets, r.verificationBuckets⟩
        r.total
    | .error _ => .serverError
  | none =>
    match esOutcome with
    | .ok r =>
      .ok r.hitIds
        ⟨r.resourceTypeBuckets, r.categoryBuckets, r.tagBuckets, r.verificationBuckets⟩
        r.total
    | .error _ => .serverError

/-! ## The cache utility (`src/utils/cache.js`) -/

/-- A Redis cache: keys to serialized values.  Expiry is handled by Redis
itself and not modelled. -/
abbrev Cache := List (String × String)

/-- The raw `redisClient.set` call, which throws when the backend is down. -/
def redisSet (backendOk : Bool) (c : Cache) (key value : String) : Except String Cache :=
  if backendOk then .ok ((c.filter (fun e => e.1 ≠ key)) ++ [(key, value)])
  else .error "redis unavailable"

/-- `cache.set`: the raw call wrapped in try/catch — a failure is logged and
swallowed, execution continues with the cache unchanged. -/
def cacheSet (backendOk : Bool) (c : Cache) (key value : String) : Except String Cache :=
  match redisSet backendOk c key value with
  | .ok c' => .ok c'
  | .error _ => .ok c

/-! ## Membership lemmas for the find pipeline -/

section PipelineLemmas

theorem mem_insertSorted {le : CategoryNode → CategoryNode → Bool}
    {e x : Nat × CategoryNode} {l : List (Nat × CategoryNode)} :
    x ∈ insertSorted le e l → x = e ∨ x ∈ l := by
  induction l with
  | nil =>
    intro h
    rcases List.mem_singleton.mp h with rfl
    exact Or.inl rfl
  | cons f rest ih =>
    intro h
    unfold insertSorted at h
    by_cases hle : le e.2 f.2
    · rw [if_pos hle] at h
      rcases List.mem_cons.mp h with rfl | h
      · exact Or.inl rfl
      · exact Or.inr h
    · rw [if_neg hle] at h
      rcases List.mem_cons.mp h with rfl | h
      · exact Or.inr (List.mem_cons_self _ _)
      · rcases ih h with rfl | h
        · exact Or.inl rfl
        · exact Or.inr (List.mem_cons_of_mem _ h)

theorem mem_sortDocs {le : CategoryNode → CategoryNode → Bool}
    {x : Nat × CategoryNode} {l : List (Nat × CategoryNode)} :
    x ∈ sortDocs le l → x ∈ l := by
  induction l with
  | nil => intro h; exact h
  | cons e rest ih =>
    intro h
    unfold sortDocs at h
    rcases mem_insertSorted h with rfl | h
    · exact List.mem_cons_self _ _
    · exact List.mem_cons_of_mem _ (ih h)

theorem mem_paginate {page limit : Nat} {x : Nat × CategoryNode}
    {l : List (Nat × CategoryNode)} (h : x ∈ paginate page limit l) : x ∈ l := by
  unfold paginate at h
  exact List.mem_of_mem_drop (List.mem_of_mem_take h)

theorem mem_removeId_ne {s : Store} {id : Nat} {e : Nat × CategoryNode}
    (h : e ∈ removeId s id) : e.1 ≠ id := by
  unfold removeId at h
  have := List.of_mem_filter h
  simpa using this

theorem mem_removeId_mem {s : Store} {id : Nat} {e : Nat × CategoryNode}
    (h : e ∈ removeId s id) : e ∈ s :=
  List.mem_of_mem_filter h

end PipelineLemmas

/-! ## Concrete fixtures

The three-node tree of the spec scenario: a root, a child, a grandchild. -/

def demoA : CategoryNode :=
  { name := "Alpha", description := "root category", slug := "alpha", parent := none,
    ancestors := [], resourceCount := 0, isActive := true, createdBy := 7,
    createdAt := 10, updatedAt := 10 }

def demoB : CategoryNode :=
  { name := "Beta", description := "child", slug := "beta", parent := some 0,
    ancestors := [0], resourceCount := 0, isActive := true, createdBy := 7,
    createdAt := 11, updatedAt := 11 }

def demoGamma : CategoryNode :=
  { name := "Gamma", description := "grandchild", slug := "gamma", parent := some 1,
    ancestors := [0, 1], resourceCount := 0, isActive := true, createdBy := 7,
    createdAt := 12, updatedAt := 12 }

def demoStore : Store := [(0, demoA), (1, demoB), (2, demoGamma)]

def demoOps : List Op :=
  [.createOp 10 7 "Alpha" "root category" none,
   .createOp 11 7 "Beta" "child" (some 0),
   .createOp 12 7 "Gamma" "grandchild" (some 1)]

/-! ## The claims -/

/-- C1: For every CategoryNode tree built by any finite sequence of category
create and move operations, every node's `ancestors` field equals the actual
chain of ids obtained by following `parent` links from the root down to the
node's immediate parent (empty for a root node): the chain walk
(`parentChain`, with any sufficient fuel) reproduces exactly the stored
`ancestors` list. -/
theorem claim_C1_ancestors_match_parent_chain (ops : List Op) (id : Nat)
    (n : CategoryNode) (h : find? (runOps ops).store id = some n)
    (fuel : Nat) (hfuel : n.ancestors.length ≤ fuel) :
    parentChain (runOps ops).store fuel n.parent = some n.ancestors :=
  parentChain_eq_ancestors (runOps_good ops).2.2 n.ancestors.length id n h
    (Nat.le_refl _) fuel hfuel

theorem claim_C1_witness :
    find? (runOps demoOps).store 2 = some demoGamma ∧
    demoGamma.ancestors.length ≤ 2 ∧
    parentChain (runOps demoOps).store 2 demoGamma.parent = some demoGamma.ancestors :=
  ⟨by decide, by decide,
    claim_C1_ancestors_match_parent_chain demoOps 2 demoGamma (by decide) 2 (by decide)⟩

/-- C2: For every category node A and every node B that is a descendant of A
or equals A, moving A under B fails with the CycleError result and leaves the
store — hence every node's `parent` and `ancestors` — exactly as before. -/
theorem claim_C2_cycle_rejected {s : Store} (hInv : Inv s)
    (esOk : Bool) (t A B : Nat) {a : CategoryNode} (ha : find? s A = some a)
    (hAB : B = A ∨ Desc s A B) :
    moveCategory true esOk t A (some B) s = (.cycleError, s, []) := by
  have hb : ∃ b, find? s B = some b := by
    rcases hAB with rfl | ⟨k, hp⟩
    · exact ⟨a, ha⟩
    · rcases hp.last_decomp with ⟨_, hcc⟩ | ⟨_, _, _, _, hcc⟩ <;>
      · unfold childOf parentOf at hcc
        rcases Option.map_eq_some'.mp hcc with ⟨b, hbfind, _⟩
        exact ⟨b, hbfind⟩
  rcases hb with ⟨b, hbfind⟩
  have hcyc : A ∈ b.ancestors ∨ B = A := by
    rcases hAB with rfl | hdesc
    · exact Or.inr rfl
    · rcases hdesc with ⟨k, hp⟩
      exact Or.inl (mem_ancestors_of_ppath hInv hp b hbfind)
  simp only [moveCategory, ha, hbfind]
  rw [if_neg (by decide : ¬ ((!true) = true)), if_pos hcyc]

theorem claim_C2_witness :
    moveCategory true true 99 0 (some 2) demoStore = (.cycleError, demoStore, []) := by
  have h01 : childOf demoStore 1 0 :=
    (show parentOf demoStore 1 = some (some 0) by decide)
  have h12 : childOf demoStore 2 1 :=
    (show parentOf demoStore 2 = some (some 1) by decide)
  exact claim_C2_cycle_rejected (inv_of_forall_mem (by decide)) true 99 0 2
    (show find? demoStore 0 = some demoA by decide)
    (Or.inr ⟨2, PPath.step (PPath.single h01) h12⟩)

/-- C3 counterexample: the descendant-ancestor repair, re-run over the
already-correct demo tree (every entry passes the invariant check), does
change stored nodes — the `pre('save')` hook refreshes `updatedAt` on every
visited descendant — so it is not a no-op as the claim states. -/
theorem claim_C3_counterexample :
    (∀ e ∈ demoStore, localInvB demoStore e.2 = true) ∧
    updateSubcategoryAncestors 99 demoStore.length demoStore 0 demoA.ancestors ≠
      demoStore := by decide

/-- C3 amended: re-running the descendant-ancestor repair on an
already-correct store changes no node's `parent` or `ancestors` (the
recomputation is idempotent on the tree structure); only save-hook metadata
(`updatedAt`) may change. -/
theorem claim_C3_repair_idempotent_on_tree {s : Store} (hnodup : (keys s).Nodup)
    (hInv : Inv s) (t pid : Nat) {pn : CategoryNode} (hpn : find? s pid = some pn) :
    ∀ x, (find? (updateSubcategoryAncestors t s.length s pid pn.ancestors) x).map
        (fun n => (n.parent, n.ancestors)) =
      (find? s x).map (fun n => (n.parent, n.ancestors)) := by
  have hfuel : ∀ c k, PPath s pid c k → k < s.length :=
    fun c k hp => ppath_length_lt hInv hpn hp
  obtain ⟨hI, hK, hP⟩ := updateSubcategoryAncestors_inv hnodup
    (fun x n hx _ => hInv x n hx) hpn rfl hfuel
  intro x
  set s2 := updateSubcategoryAncestors t s.length s pid pn.ancestors with hs2
  have hpx : parentOf s2 x = parentOf s x := hP x
  unfold parentOf at hpx
  cases h2 : find? s2 x with
  | none =>
    rw [h2] at hpx
    cases hx : find? s x with
    | none => rfl
    | some n1 =>
      rw [hx] at hpx
      cases hpx
  | some n2 =>
    rw [h2] at hpx
    cases hx : find? s x with
    | none =>
      rw [hx] at hpx
      cases hpx
    | some n1 =>
      rw [hx] at hpx
      have hparent : n2.parent = n1.parent := by
        simpa using hpx
      have hM : n2.ancestors.length ≤ max n1.ancestors.length n2.ancestors.length :=
        Nat.le_max_right _ _
      have hanc2 := parentChain_eq_ancestors hI n2.ancestors.length x n2 h2
        (Nat.le_refl _) (max n1.ancestors.length n2.ancestors.length) hM
      have hanc1 := parentChain_eq_ancestors hInv n1.ancestors.length x n1 hx
        (Nat.le_refl _) (max n1.ancestors.length n2.ancestors.length)
        (Nat.le_max_left _ _)
      rw [hparent, parentChain_congr hP, hanc1] at hanc2
      have hancEq : n1.ancestors = n2.ancestors := Option.some.inj hanc2
      simp [hparent, hancEq]

theorem claim_C3_witness :
    (find? (updateSubcategoryAncestors 99 demoStore.length demoStore 0 demoA.ancestors) 1).map
        (fun n => (n.parent, n.ancestors)) =
      (find? demoStore 1).map (fun n => (n.parent, n.ancestors)) :=
  claim_C3_repair_idempotent_on_tree (by decide) (inv_of_forall_mem (by decide)) 99 0
    (show find? demoStore 0 = some demoA by decide) 1

/-- C4: Deleting a category fails with HasChildren whenever at least one
stored node lists it as parent; fails with NotEmpty whenever its
`resourceCount` is nonzero and it has no children; and with zero children
and zero resources the delete succeeds, removes the node, and the node's id
no longer appears in any subsequent `getCategories` listing. -/
theorem claim_C4_delete_guards {s : Store} (esOk : Bool) (id : Nat) {c : CategoryNode}
    (hfind : find? s id = some c) :
    ((∃ e ∈ s, e.2.parent = some id) →
      deleteCategory true esOk id s = (.hasChildren, s, [])) ∧
    ((¬ ∃ e ∈ s, e.2.parent = some id) → c.resourceCount ≠ 0 →
      deleteCategory true esOk id s = (.notEmpty, s, [])) ∧
    ((¬ ∃ e ∈ s, e.2.parent = some id) → c.resourceCount = 0 →
      deleteCategory true esOk id s = (.deleted, removeId s id, [id]) ∧
      find? (removeId s id) id = none ∧
      ∀ tm le pf page limit esOutcome cnt data,
        getCategories tm le "" pf page limit esOutcome (removeId s id) = .ok cnt data →
        ∀ e ∈ data, e.1 ≠ id) := by
  refine ⟨?_, ?_, ?_⟩
  · intro hchild
    have hchB : (childrenOf s id).isEmpty = false := by
      rcases hchild with ⟨e, he, hp⟩
      have hm : e ∈ childrenOf s id := mem_childrenOf.mpr ⟨he, hp⟩
      cases hch : childrenOf s id with
      | nil =>
        rw [hch] at hm
        simp at hm
      | cons f l => rfl
    simp only [deleteCategory, hfind]
    rw [if_neg (by decide : ¬ ((!true) = true)), hchB,
      if_pos (by decide : (!false) = true)]
  · intro hnochild hrc
    have hchB : (childrenOf s id).isEmpty = true := by
      cases hch : childrenOf s id with
      | nil => rfl
      | cons f l =>
        exfalso
        have hm : f ∈ childrenOf s id := by
          rw [hch]
          exact List.mem_cons_self _ _
        rcases mem_childrenOf.mp hm with ⟨hmem, hp⟩
        exact hnochild ⟨f, hmem, hp⟩
    simp only [deleteCategory, hfind]
    rw [if_neg (by decide : ¬ ((!true) = true)), hchB,
      if_neg (by decide : ¬ ((!true) = true)), if_pos (Nat.pos_of_ne_zero hrc)]
  · intro hnochild hrc
    have hchB : (childrenOf s id).isEmpty = true := by
      cases hch : childrenOf s id with
      | nil => rfl
      | cons f l =>
        exfalso
        have hm : f ∈ childrenOf s id := by
          rw [hch]
          exact List.mem_cons_self _ _
        rcases mem_childrenOf.mp hm with ⟨hmem, hp⟩
        exact hnochild ⟨f, hmem, hp⟩
    have hstep : deleteCategory true esOk id s = (.deleted, removeId s id, [id]) := by
      simp only [deleteCategory, hfind]
      rw [if_neg (by decide : ¬ ((!true) = true)), hchB,
        if_neg (by decide : ¬ ((!true) = true)), if_neg (by omega : ¬ c.resourceCount > 0)]
      cases esCall esOk with
      | ok u => rfl
      | error e => rfl
    refine ⟨hstep, find?_removeId_self s id, ?_⟩
    intro tm le pf page limit esOutcome cnt data hget e hmem
    unfold getCategories at hget
    rw [if_neg (by simp : ¬ (("" : String) ≠ ""))] at hget
    have hdata : data = paginate page limit
        (sortDocs le ((removeId s id).filter (parentMatch pf))) := by
      cases hget
      rfl
    rw [hdata] at hmem
    exact mem_removeId_ne (List.mem_of_mem_filter (mem_sortDocs (mem_paginate hmem)))

theorem claim_C4_witness :
    deleteCategory true true 0 demoStore = (.hasChildren, demoStore, []) ∧
    deleteCategory true true 2 demoStore = (.deleted, removeId demoStore 2, [2]) ∧
    find? (removeId demoStore 2) 2 = none := by
  have h0 := claim_C4_delete_guards true 0 (show find? demoStore 0 = some demoA by decide)
  have h2 := claim_C4_delete_guards true 2
    (show find? demoStore 2 = some demoGamma by decide)
  have h2' := h2.2.2 (by decide) (by decide)
  exact ⟨h0.1 ⟨(1, demoB), by decide, by decide⟩, h2'.1, h2'.2.1⟩

/-- C5 counterexample: with the search index erroring, the advanced search
operation does fail — the error propagates through `next(err)` to the error
handler as a 500 response — instead of degrading to a PrimaryStore query,
both with and without a query string. -/
theorem claim_C5_counterexample :
    advancedSearch (some "calculus") (.error "connect ECONNREFUSED") = .serverError ∧
    advancedSearch none (.error "connect ECONNREFUSED") = .serverError :=
  ⟨rfl, rfl⟩

/-- C5 amended: the category listing/search (`getCategories`) does degrade:
for every nonempty query, when the index call errors the response is a
success of the same `{count, data}` shape as the index path, with every
returned document drawn from the primary store; `advancedSearch` does not
degrade and fails with a server error (see the counterexample). -/
theorem claim_C5_degraded_category_search (tm : String → CategoryNode → Bool)
    (le : CategoryNode → CategoryNode → Bool) (q : String) (hq : q ≠ "")
    (pf : Option (Option Nat)) (page limit : Nat) (msg : String) (s : Store) :
    ∃ cnt data, getCategories tm le q pf page limit (.error msg) s = .ok cnt data ∧
      ∀ x ∈ data, x ∈ s := by
  unfold getCategories
  rw [if_pos hq]
  refine ⟨_, _, rfl, ?_⟩
  intro x hx
  exact List.mem_of_mem_filter (mem_sortDocs (mem_paginate hx))

theorem claim_C5_witness :
    ∃ cnt data,
      getCategories (fun q n => q = n.name) (fun a b => a.name ≤ b.name) "Beta" none 1 20
        (.error "connect ECONNREFUSED") demoStore = .ok cnt data ∧
      ∀ x ∈ data, x ∈ demoStore :=
  claim_C5_degraded_category_search (fun q n => q = n.name) (fun a b => a.name ≤ b.name)
    "Beta" (by decide) none 1 20 "connect ECONNREFUSED" demoStore

/-- C6 counterexample: moving the demo child to the root repairs its
descendant (node 2's stored `ancestors` changes from `[0, 1]` to `[1]`), yet
the SearchIndex write attempts of the move are `[1]` only — no write is
attempted for the repaired descendant 2, contradicting one-call-per-affected
entity. -/
theorem claim_C6_counterexample :
    (moveCategory true true 99 1 none demoStore).2.2 = [1] ∧
    (find? demoStore 2).map CategoryNode.ancestors = some [0, 1] ∧
    (find? (moveCategory true true 99 1 none demoStore).2.1 2).map
      CategoryNode.ancestors = some [1] ∧
    (2 : Nat) ∉ (moveCategory true true 99 1 none demoStore).2.2 := by decide

/-- C6 amended: after every successful category move the coordinator attempts
exactly one SearchIndex document write — for the moved node only; repaired
descendants receive no index write. -/
theorem claim_C6_single_index_write (admin esOk : Bool) (t cid : Nat)
    (target : Option Nat) (s : Store) (n : CategoryNode)
    (h : (moveCategory admin esOk t cid target s).1 = .moved n) :
    (moveCategory admin esOk t cid target s).2.2 = [cid] := by
  cases admin with
  | false =>
    exfalso
    have hstep : moveCategory false esOk t cid target s = (.notAuthorized, s, []) := rfl
    rw [hstep] at h
    cases h
  | true =>
    cases hfind : find? s cid with
    | none =>
      exfalso
      have hstep : moveCategory true esOk t cid target s = (.notFound, s, []) := by
        unfold moveCategory
        rw [hfind]
        rfl
      rw [hstep] at h
      cases h
    | some category =>
      cases target with
      | none =>
        have hstep : moveCategory true esOk t cid none s =
            (let category1 := presave t { category with parent := none, ancestors := [] }
             let s1 := save s cid category1
             let s2 := updateSubcategoryAncestors t s1.length s1 cid category1.ancestors
             match esCall esOk with
             | .ok _ => (.moved category1, s2, [cid])
             | .error _ => (.moved category1, s2, [cid])) := by
          unfold moveCategory
          rw [hfind]
          rfl
        rw [hstep]
        cases esCall esOk with
        | ok u => rfl
        | error e => rfl
      | some pid =>
        cases hpfind : find? s pid with
        | none =>
          exfalso
          have hstep : moveCategory true esOk t cid (some pid) s =
              (.parentNotFound, s, []) := by
            simp [moveCategory, hfind, hpfind]
          rw [hstep] at h
          cases h
        | some newParent =>
          by_cases hcyc : cid ∈ newParent.ancestors ∨ pid = cid
          · exfalso
            have hstep : moveCategory true esOk t cid (some pid) s =
                (.cycleError, s, []) := by
              simp only [moveCategory, hfind, hpfind]
              rw [if_neg (by decide : ¬ ((!true) = true)), if_pos hcyc]
            rw [hstep] at h
            cases h
          · have hstep : moveCategory true esOk t cid (some pid) s =
                (let category1 := presave t { category with parent := some pid, ancestors := newParent.ancestors ++ [pid] }
                 let s1 := save s cid category1
                 let s2 := updateSubcategoryAncestors t s1.length s1 cid category1.ancestors
                 match esCall esOk with
                 | .ok _ => (.moved category1, s2, [cid])
                 | .error _ => (.moved category1, s2, [cid])) := by
              simp only [moveCategory, hfind, hpfind]
              rw [if_neg (by decide : ¬ ((!true) = true)), if_neg hcyc]
            rw [hstep]
            cases esCall esOk with
            | ok u => rfl
            | error e => rfl

theorem claim_C6_witness :
    (moveCategory true true 99 1 none demoStore).2.2 = [1] :=
  claim_C6_single_index_write true true 99 1 none demoStore
    (presave 99 { demoB with parent := none, ancestors := [] }) (by decide)

/-- C7: For a create whose PrimaryStore write succeeds, a SearchIndex failure
is caught and does not change the result or the stored state (the outcome is
identical to the success case); the created document is visible on a
subsequent direct store read; and a Cache `set` never surfaces a failure to
its caller. -/
theorem claim_C7_best_effort (t uid : Nat) (nm ds : String) (parent : Option Nat)
    (st : State) (hg : GoodState st) (ck cv : String) (c : Cache) :
    createCategory false t uid nm ds parent st =
      createCategory true t uid nm ds parent st ∧
    (∀ id node st' es, createCategory false t uid nm ds parent st =
        (.created id node, st', es) → find? st'.store id = some node) ∧
    (∀ backendOk, ∃ c', cacheSet backendOk c ck cv = .ok c') := by
  refine ⟨?_, ?_, ?_⟩
  · unfold createCategory
    split
    · rfl
    · split
      · split
        · rfl
        · split
          · rfl
          · cases esCall false with
            | ok u => cases esCall true with | ok v => rfl | error e => rfl
            | error e => cases esCall true with | ok v => rfl | error e => rfl
      · split
        · rfl
        · cases esCall false with
          | ok u => cases esCall true with | ok v => rfl | error e => rfl
          | error e => cases esCall true with | ok v => rfl | error e => rfl
  · intro id node st' es h
    have hfresh : find? st.store st.nextId = none := by
      apply find?_eq_none_of_not_mem_keys
      intro hmem
      exact absurd (hg.2.1 _ hmem) (by omega)
    unfold createCategory at h
    split at h
    · cases h
    · split at h
      · split at h
        · cases h
        · split at h
          · cases h
          · split at h <;>
            · rw [Prod.mk.injEq, Prod.mk.injEq] at h
              obtain ⟨h1, h2, _⟩ := h
              cases h1
              rw [← h2]
              show find? (st.store ++ [(st.nextId, _)]) st.nextId = _
              rw [find?_append_of_none hfresh, find?_cons, if_pos rfl]
      · split at h
        · cases h
        · split at h <;>
          · rw [Prod.mk.injEq, Prod.mk.injEq] at h
            obtain ⟨h1, h2, _⟩ := h
            cases h1
            rw [← h2]
            show find? (st.store ++ [(st.nextId, _)]) st.nextId = _
            rw [find?_append_of_none hfresh, find?_cons, if_pos rfl]
  · intro backendOk
    cases backendOk with
    | false => exact ⟨c, rfl⟩
    | true => exact ⟨_, rfl⟩

theorem claim_C7_witness :
    createCategory false 50 7 "Delta" "branch" (some 2) ⟨demoStore, 3⟩ =
      createCategory true 50 7 "Delta" "branch" (some 2) ⟨demoStore, 3⟩ ∧
    find? (createCategory false 50 7 "Delta" "branch" (some 2) ⟨demoStore, 3⟩).2.1.store 3 =
      some (newCategory 50 7 "Delta" "branch" (some 2) [0, 1, 2]) := by
  have h := claim_C7_best_effort 50 7 "Delta" "branch" (some 2) ⟨demoStore, 3⟩
    ⟨by decide, by decide, inv_of_forall_mem (by decide)⟩ "key" "value" []
  refine ⟨h.1, h.2.1 3 (newCategory 50 7 "Delta" "branch" (some 2) [0, 1, 2])
    ⟨demoStore ++ [(3, newCategory 50 7 "Delta" "branch" (some 2) [0, 1, 2])], 4⟩
    [3] (by decide)⟩

/-- C8 counterexample: renaming a category to its own current name — a name
whose trimmed form equals the name of an existing category (itself) —
succeeds instead of failing with DuplicateName: the rename check is skipped
when the trimmed new name equals the category's own name. -/
theorem claim_C8_counterexample :
    nameExists demoStore (jsTrim "Alpha") = true ∧
    (updateCategory true true 99 0 { name := some "Alpha" } demoStore).1 =
      .updated { demoA with updatedAt := 99 } := by decide

/-- C8 amended: name uniqueness is enforced globally by a case-sensitive
exact match after trimming: a create whose trimmed name equals any existing
category's name fails with DuplicateName and persists nothing, and a rename
whose trimmed new name differs from the category's own current name and
equals an existing category's name fails with DuplicateName and persists
nothing; renaming a category to its own current name bypasses the check. -/
theorem claim_C8_global_unique_names :
    (∀ (esOk : Bool) (t uid : Nat) (nm ds : String) (parent : Option Nat) (st : State),
      nameExists st.store (jsTrim nm) = true →
      createCategory esOk t uid nm ds parent st = (.duplicateName, st, [])) ∧
    (∀ (esOk : Bool) (t id : Nat) (body : UpdatePayload) (s : Store)
      (category : CategoryNode) (nm : String),
      find? s id = some category → body.name = some nm → nm ≠ "" →
      jsTrim nm ≠ category.name → nameExists s (jsTrim nm) = true →
      updateCategory true esOk t id body s = (.duplicateName, s, [])) := by
  constructor
  · intro esOk t uid nm ds parent st h
    unfold createCategory
    rw [if_pos h]
  · intro esOk t id body s category nm hfind hnm hne1 hne2 hex
    have hclash : renameClash s category body.name = true := by
      unfold renameClash
      rw [hnm]
      simp [Bool.and_eq_true, bne_iff_ne, hne1, hne2, hex]
    simp only [updateCategory, hfind]
    rw [if_neg (by decide : ¬ ((!true) = true)), hclash, if_pos rfl]

theorem claim_C8_witness :
    createCategory true 50 7 " Alpha " "dup" none ⟨demoStore, 3⟩ =
      (.duplicateName, ⟨demoStore, 3⟩, []) ∧
    updateCategory true true 99 2 { name := some "Alpha" } demoStore =
      (.duplicateName, demoStore, []) :=
  ⟨claim_C8_global_unique_names.1 true 50 7 " Alpha " "dup" none ⟨demoStore, 3⟩ (by decide),
   claim_C8_global_unique_names.2 true 99 2 { name := some "Alpha" } demoStore demoGamma
     "Alpha" (by decide) rfl (by decide) (by decide) (by decide)⟩

/-- C9 (failing input): the category update spreads the request body into the
store write, so a `resourceCount` supplied in the payload is persisted: after
updating the demo root with `{resourceCount: 42}`, the stored counter is 42
— the derived counter is directly settable by clients through update,
contrary to the data-model contract (create does discard it). -/
theorem claim_C9_resource_count_client_settable :
    demoA.resourceCount = 0 ∧
    (updateCategory true true 99 0 { resourceCount := some 42 } demoStore).1 =
      .updated { demoA with resourceCount := 42, updatedAt := 99 } ∧
    (find? (updateCategory true true 99 0 { resourceCount := some 42 } demoStore).2.1 0).map
      CategoryNode.resourceCount = some 42 := by decide

/-- C10 (failing input): the update endpoint deletes only a *truthy* `parent`
from the payload, so an explicit `parent: null` survives and clears the
stored parent: updating the demo child (parent 0) with `{parent: null}`
leaves it a root, while a truthy `parent` value is indeed discarded. -/
theorem claim_C10_null_parent_leaks_through :
    demoB.parent = some 0 ∧
    (find? (updateCategory true true 99 1 { parent := some none } demoStore).2.1 1).map
      CategoryNode.parent = some none ∧
    (find? (updateCategory true true 99 1 { parent := some (some 2) } demoStore).2.1 1).map
      CategoryNode.parent = some (some 0) := by decide

end KnowledgeGarden
